import Mathlib

/-!
Shallow embedding of the memory-to-BRAM mapping pass (`memory_bram.cc`):
the rules data model, the match evaluator (`handle_cell`), the port
assigner with read-port duplication and the grid stitcher
(`replace_cell`).  Identifier names (`IdString`) are modelled as natural
numbers; signal bits are either a constant state or a bit of a wire.
-/

set_option maxRecDepth 4000

namespace MemoryBram

/-- A signal bit: a constant state (0 = S0, 1 = S1, 2 = Sx, ...) or bit
number `o` of wire number `w` (yosys `SigBit`). -/
inductive SigBit where
  | st : Nat → SigBit
  | wirebit : Nat → Nat → SigBit
deriving DecidableEq, Repr

def SigBit.S0 : SigBit := .st 0
def SigBit.S1 : SigBit := .st 1
def SigBit.Sx : SigBit := .st 2

def SigBit.isWire : SigBit → Bool
  | .wirebit _ _ => true
  | .st _ => false

/-- A signal vector (yosys `SigSpec`), LSB first. -/
abbrev SigSpec := List SigBit

/-- `SigSpec::extract(off, len)`. -/
def extract (s : SigSpec) (off len : Nat) : SigSpec := (s.drop off).take len

/-- `SigSpec::extend_u0(len)`: zero-extend with S0, or truncate from the
top when the vector is longer than `len`. -/
def extend_u0 (s : SigSpec) (len : Nat) : SigSpec :=
  (s ++ List.replicate (len - s.length) SigBit.S0).take len

/-- `SigSpec(v, len)`: the constant `v` as a `len`-bit vector. -/
def constSig (v len : Nat) : SigSpec :=
  (List.range len).map (fun i => if v.testBit i then SigBit.S1 else SigBit.S0)

/-- Association list with in-place update, modelling the yosys `dict`
(iteration in insertion order). -/
def dictGet {α β : Type} [DecidableEq α] (l : List (α × β)) (k : α) : Option β :=
  match l with
  | [] => none
  | (k2, v) :: rest => if k2 = k then some v else dictGet rest k

def dictSet {α β : Type} [DecidableEq α] (l : List (α × β)) (k : α) (v : β) : List (α × β) :=
  match l with
  | [] => [(k, v)]
  | (k2, v2) :: rest => if k2 = k then (k, v) :: rest else (k2, v2) :: dictSet rest k v

/-- `rules_t::portinfo_t`.  `mapped_port = none` models the `-1`
sentinel. -/
structure portinfo_t where
  group : Nat
  index : Nat
  dupidx : Nat
  wrmode : Nat
  enable : Nat
  transp : Nat
  clocks : Nat
  clkpol : Nat
  sig_clock : SigBit
  sig_addr : SigSpec
  sig_data : SigSpec
  sig_en : SigSpec
  effective_clkpol : Bool
  mapped_port : Option Nat
deriving DecidableEq, Repr

/-- `rules_t::bram_t`. -/
structure bram_t where
  name : Nat
  groups : Nat
  abits : Nat
  dbits : Nat
  init : Nat
  ports : List Nat
  wrmode : List Nat
  enable : List Nat
  transp : List Nat
  clocks : List Nat
  clkpol : List Nat
deriving DecidableEq, Repr

/-- `bram_t::make_portinfos`: cartesian product of groups × ports, with
out-of-range per-group vectors read as 0. -/
def bram_t.make_portinfos (b : bram_t) : List portinfo_t :=
  (List.range (min b.groups b.ports.length)).flatMap (fun i =>
    (List.range (b.ports.getD i 0)).map (fun j =>
      { group := i
        index := j
        dupidx := 0
        wrmode := b.wrmode.getD i 0
        enable := b.enable.getD i 0
        transp := b.transp.getD i 0
        clocks := b.clocks.getD i 0
        clkpol := b.clkpol.getD i 0
        sig_clock := SigBit.S0
        sig_addr := []
        sig_data := []
        sig_en := []
        effective_clkpol := false
        mapped_port := none }))

/-- The `$mem` cell's parameters and port connections used by the pass
(`LogicalMemory`); the `WR_CLK_ENABLE`-style parameter vectors are
modelled as lists of booleans (bit = S1), already extended to the port
count. -/
structure mem_cell_t where
  size : Nat
  abits : Nat
  width : Nat
  wr_ports : Nat
  wr_clken : List Bool
  wr_clkpol : List Bool
  wr_en : SigSpec
  wr_clk : SigSpec
  wr_data : SigSpec
  wr_addr : SigSpec
  rd_ports : Nat
  rd_clken : List Bool
  rd_clkpol : List Bool
  rd_clk : SigSpec
  rd_data : SigSpec
  rd_addr : SigSpec
deriving DecidableEq, Repr

/-- Clock-enable flag and clock domain of logical write port `w`
(lines 279-285 of the source): the async pseudo-domain is
`(S1, false)`. -/
def wr_clkdom (mem : mem_cell_t) (w : Nat) : Bool × (SigBit × Bool) :=
  let clken := mem.wr_clken.getD w false
  let clkpol := mem.wr_clkpol.getD w false
  let clksig := mem.wr_clk.getD w SigBit.S0
  (clken, if clken then (clksig, clkpol) else (SigBit.S1, false))

/-- Same for logical read port `r`. -/
def rd_clkdom (mem : mem_cell_t) (r : Nat) : Bool × (SigBit × Bool) :=
  let clken := mem.rd_clken.getD r false
  let clkpol := mem.rd_clkpol.getD r false
  let clksig := mem.rd_clk.getD r SigBit.S0
  (clken, if clken then (clksig, clkpol) else (SigBit.S1, false))

/-- Clock and polarity compatibility of a physical port with a logical
port's clock domain (shared by the write- and read-port loops). -/
def clk_compat (cd : List (Nat × (SigBit × Bool))) (cp : List (Nat × Bool))
    (clken : Bool) (clkdom : SigBit × Bool) (pi : portinfo_t) : Bool :=
  if clken then
    decide (pi.clocks ≠ 0) &&
    (match dictGet cd pi.clocks with
     | some d => decide (d = clkdom)
     | none => true) &&
    (match dictGet cp pi.clkpol with
     | some p => decide (p = clkdom.2)
     | none => true)
  else decide (pi.clocks = 0)

/-- One iteration of the write-enable structure scan (lines 319-330):
at a lane start append the bit to `sig_en`, then require the current bit
to equal the last lane-start bit. -/
def en_scan_step (bits : Nat → SigBit) (enable dbits : Nat)
    (acc : SigBit × SigSpec) (i : Nat) : Option (SigBit × SigSpec) :=
  let s :=
    if enable ≠ 0 ∧ i % (dbits / enable) = 0 then (bits i, acc.2 ++ [bits i])
    else acc
  if s.1 = bits i then some s else none

def en_scan_go (bits : Nat → SigBit) (enable dbits : Nat) : Nat → Option (SigBit × SigSpec)
  | 0 => some (SigBit.S1, [])
  | n + 1 =>
    (en_scan_go bits enable dbits n).bind (fun acc => en_scan_step bits enable dbits acc n)

/-- The full write-enable scan over bits `0 .. width-1`; `some sig_en`
when the enable structure is compatible. -/
def en_scan (bits : Nat → SigBit) (width enable dbits : Nat) : Option SigSpec :=
  (en_scan_go bits enable dbits width).map (·.2)

/-- Acceptance test of one `portinfo_t` for logical write port `w`
(lines 295-330): write mode, clock compatibility, enable structure. -/
def wr_port_ok (mem : mem_cell_t) (bram : bram_t)
    (cd : List (Nat × (SigBit × Bool))) (cp : List (Nat × Bool))
    (w : Nat) (pi : portinfo_t) : Option SigSpec :=
  if pi.wrmode ≠ 1 then none
  else
    let c := wr_clkdom mem w
    if clk_compat cd cp c.1 c.2 pi then
      en_scan (fun i => mem.wr_en.getD (i + w * mem.width) SigBit.S0)
        mem.width pi.enable bram.dbits
    else none

/-- Acceptance test of one `portinfo_t` for logical read port `r`
(lines 406-428): read mode, unmapped, clock compatibility. -/
def rd_port_ok (mem : mem_cell_t)
    (cd : List (Nat × (SigBit × Bool))) (cp : List (Nat × Bool))
    (r : Nat) (pi : portinfo_t) : Option Unit :=
  if pi.wrmode ≠ 0 ∨ pi.mapped_port.isSome then none
  else
    let c := rd_clkdom mem r
    if clk_compat cd cp c.1 c.2 pi then some () else none

def find_port_go {α : Type} (p : portinfo_t → Option α) :
    Nat → List portinfo_t → Option (Nat × α)
  | _, [] => none
  | i, pi :: rest =>
    match p pi with
    | some a => some (i, a)
    | none => find_port_go p (i + 1) rest

/-- Scan the portinfo vector from index `start` for the first entry
accepted by `p`; returns its index and the acceptance data. -/
def find_port {α : Type} (pis : List portinfo_t) (start : Nat)
    (p : portinfo_t → Option α) : Option (Nat × α) :=
  find_port_go p start (pis.drop start)

structure assign_state where
  portinfos : List portinfo_t
  clock_domains : List (Nat × (SigBit × Bool))
  clock_polarities : List (Nat × Bool)
deriving DecidableEq, Repr

/-- Bind logical write port `w` to portinfo slot `slot` (lines 332-347):
record the mapping, the clock cohort bindings and the signal slices. -/
def bind_wr (mem : mem_cell_t) (st : assign_state) (w slot : Nat)
    (sig_en : SigSpec) : assign_state :=
  match st.portinfos.get? slot with
  | none => st
  | some pi0 =>
    let c := wr_clkdom mem w
    let pi : portinfo_t :=
      { pi0 with
        mapped_port := some w
        sig_clock := if c.1 then c.2.1 else pi0.sig_clock
        effective_clkpol := if c.1 then c.2.2 else pi0.effective_clkpol
        sig_en := sig_en
        sig_addr := extract mem.wr_addr (w * mem.abits) mem.abits
        sig_data := extract mem.wr_data (w * mem.width) mem.width }
    { portinfos := st.portinfos.set slot pi
      clock_domains :=
        if c.1 then dictSet st.clock_domains pi0.clocks c.2 else st.clock_domains
      clock_polarities :=
        if c.1 then dictSet st.clock_polarities pi0.clkpol c.2.2 else st.clock_polarities }

/-- The write-port loop (lines 277-353): a non-resetting cursor advances
over the portinfo vector; failure of any port fails the whole
candidate. -/
def write_loop (mem : mem_cell_t) (bram : bram_t) :
    List Nat → Nat → assign_state → Option (Nat × assign_state)
  | [], cursor, st => some (cursor, st)
  | w :: ws, cursor, st =>
    match find_port st.portinfos cursor
        (wr_port_ok mem bram st.clock_domains st.clock_polarities w) with
    | none => none
    | some (slot, sig_en) =>
      write_loop mem bram ws (slot + 1) (bind_wr mem st w slot sig_en)

/-- Initial assignment state: fresh portinfos, empty clock-domain map,
polarity cohorts 0 and 1 pre-bound to `false` and `true`. -/
def init_state (bram : bram_t) : assign_state :=
  { portinfos := bram.make_portinfos
    clock_domains := []
    clock_polarities := [(0, false), (1, true)] }

def write_phase (mem : mem_cell_t) (bram : bram_t) : Option assign_state :=
  (write_loop mem bram (List.range mem.wr_ports) 0 (init_state bram)).map (·.2)

/-- State of the read-port phase: the grow cursor starts at `-1` and the
grow flag cleared; one BRAM replica exists. -/
structure read_state where
  a : assign_state
  grow_read_ports_cursor : Int
  try_growing_more_read_ports : Bool
  dup_count : Nat
deriving DecidableEq, Repr

def init_read_state (st : assign_state) : read_state :=
  { a := st
    grow_read_ports_cursor := -1
    try_growing_more_read_ports := false
    dup_count := 1 }

/-- Bind logical read port `r` to portinfo slot `slot` (lines 430-446),
including the grow-cursor update. -/
def bind_rd (mem : mem_cell_t) (rst : read_state) (r slot : Nat) : read_state :=
  match rst.a.portinfos.get? slot with
  | none => rst
  | some pi0 =>
    let c := rd_clkdom mem r
    let pi : portinfo_t :=
      { pi0 with
        mapped_port := some r
        sig_clock := if c.1 then c.2.1 else pi0.sig_clock
        effective_clkpol := if c.1 then c.2.2 else pi0.effective_clkpol
        sig_addr := extract mem.rd_addr (r * mem.abits) mem.abits
        sig_data := extract mem.rd_data (r * mem.width) mem.width }
    let a : assign_state :=
      { portinfos := rst.a.portinfos.set slot pi
        clock_domains :=
          if c.1 then dictSet rst.a.clock_domains pi0.clocks c.2 else rst.a.clock_domains
        clock_polarities :=
          if c.1 then dictSet rst.a.clock_polarities pi0.clkpol c.2.2 else rst.a.clock_polarities }
    if rst.grow_read_ports_cursor < (r : Int) then
      { a := a
        grow_read_ports_cursor := (r : Int)
        try_growing_more_read_ports := true
        dup_count := rst.dup_count }
    else { rst with a := a }

/-- One pass of the read-port loop (lines 388-457) over the listed
logical read ports; `.error` carries the state at the failing port. -/
def read_round (mem : mem_cell_t) :
    List Nat → read_state → Except read_state read_state
  | [], rst => .ok rst
  | r :: rs, rst =>
    match find_port rst.a.portinfos 0
        (rd_port_ok mem rst.a.clock_domains rst.a.clock_polarities r) with
    | none => .error rst
    | some (slot, _) => read_round mem rs (bind_rd mem rst r slot)

/-- The duplication step on the portinfo vector (lines 362-380): clear
the binding state of every read-mode portinfo, and after each portinfo
of the last replica append a copy with `dupidx` incremented and the
cohort ids not appearing on write groups shifted. -/
def grow_portinfos (dup_count : Nat) (cwr ckwr : List Nat)
    (clocks_max clkpol_max : Nat) : List portinfo_t → List portinfo_t
  | [] => []
  | pi :: rest =>
    let pi :=
      if pi.wrmode = 0 then
        { pi with
          mapped_port := none
          sig_clock := SigBit.S0
          sig_addr := []
          sig_data := []
          sig_en := [] }
      else pi
    let tail := grow_portinfos dup_count cwr ckwr clocks_max clkpol_max rest
    if pi.dupidx = dup_count - 1 then
      pi ::
      { pi with
        clocks :=
          if pi.clocks ≠ 0 ∧ cwr.contains pi.clocks = false
          then pi.clocks + clocks_max else pi.clocks
        clkpol :=
          if 1 < pi.clkpol ∧ ckwr.contains pi.clkpol = false
          then pi.clkpol + clkpol_max else pi.clkpol
        dupidx := pi.dupidx + 1 } :: tail
    else pi :: tail

/-- The pre-scan data (lines 229-245) and the cohort-map snapshot taken
after the write phase (lines 357-358). -/
structure grow_env where
  cwr : List Nat
  ckwr : List Nat
  cmax : Nat
  kmax : Nat
  backup_cd : List (Nat × (SigBit × Bool))
  backup_cp : List (Nat × Bool)
deriving DecidableEq, Repr

def clocks_wr_ports_of (pis : List portinfo_t) : List Nat :=
  (pis.filter (fun pi => decide (pi.wrmode ≠ 0))).map (·.clocks)

def clkpol_wr_ports_of (pis : List portinfo_t) : List Nat :=
  ((pis.filter (fun pi => decide (pi.wrmode ≠ 0))).filter
    (fun pi => decide (1 < pi.clkpol))).map (·.clkpol)

def clocks_max_of (pis : List portinfo_t) : Nat :=
  pis.foldl (fun a pi => max a pi.clocks) 0

def clkpol_max_of (pis : List portinfo_t) : Nat :=
  pis.foldl (fun a pi => max a pi.clkpol) 0

def make_grow_env (bram : bram_t) (st : assign_state) : grow_env :=
  let pis := bram.make_portinfos
  { cwr := clocks_wr_ports_of pis
    ckwr := clkpol_wr_ports_of pis
    cmax := clocks_max_of pis
    kmax := clkpol_max_of pis
    backup_cd := st.clock_domains
    backup_cp := st.clock_polarities }

/-- The full duplication step (lines 360-386): grow the portinfo vector,
roll the cohort maps back to the post-write snapshot, clear the grow
flag and increment the replica count; the grow cursor is not reset. -/
def grow_step (env : grow_env) (rst : read_state) : read_state :=
  { a :=
      { portinfos :=
          grow_portinfos rst.dup_count env.cwr env.ckwr env.cmax env.kmax rst.a.portinfos
        clock_domains := env.backup_cd
        clock_polarities := env.backup_cp }
    grow_read_ports_cursor := rst.grow_read_ports_cursor
    try_growing_more_read_ports := false
    dup_count := rst.dup_count + 1 }

/-- The read-port phase: run a full round over all read ports; on
failure, grow once and retry (from read port 0) while the grow flag is
set.  `fuel` bounds the number of duplication steps; the outer `none`
means fuel ran out (shown unreachable for `fuel = rd_ports`), the inner
`none` a definite mapping failure. -/
def read_phase (mem : mem_cell_t) (env : grow_env) :
    Nat → read_state → Option (Option read_state)
  | 0, rst =>
    match read_round mem (List.range mem.rd_ports) rst with
    | .ok rst2 => some (some rst2)
    | .error rst2 =>
      if rst2.try_growing_more_read_ports then none else some none
  | fuel2 + 1, rst =>
    match read_round mem (List.range mem.rd_ports) rst with
    | .ok rst2 => some (some rst2)
    | .error rst2 =>
      if rst2.try_growing_more_read_ports then
        read_phase mem env fuel2 (grow_step env rst2)
      else some none

/-- The whole port-assignment engine of `replace_cell` (lines 220-457):
write phase, then read phase with duplication.  Outer `none` would mean
the duplication fuel ran out. -/
def assign_ports (mem : mem_cell_t) (bram : bram_t) : Option (Option read_state) :=
  match write_phase mem bram with
  | none => some none
  | some st =>
    read_phase mem (make_grow_env bram st) mem.rd_ports (init_read_state st)

def port_assignment (mem : mem_cell_t) (bram : bram_t) : Option read_state :=
  match assign_ports mem bram with
  | some r => r
  | none => none

/-! ### The grid stitcher -/

/-- Cell names: the original `$mem` cell, a grid instance derived from
it and the triple `(grid_d, grid_a, dupidx)`, or a fresh generated
name (`NEW_ID`). -/
inductive cell_name where
  | orig : Nat → cell_name
  | inst : Nat → Nat → Nat → Nat → cell_name
  | fresh : Nat → cell_name
deriving DecidableEq, Repr

inductive cell_type where
  | bram_cell : Nat → cell_type
  | mem_cell : cell_type
  | eq_cell : cell_type
  | mux_cell : cell_type
  | dff_cell : cell_type
  | pmux_cell : cell_type
deriving DecidableEq, Repr

/-- Port labels: `<group-letter><index+1>` with suffix EN/DATA/ADDR,
clock inputs, and the generic pin names of the helper gates. -/
inductive port_name where
  | pEN : Nat → Nat → port_name
  | pDATA : Nat → Nat → port_name
  | pADDR : Nat → Nat → port_name
  | pCLK : Nat → port_name
  | gA : port_name
  | gB : port_name
  | gS : port_name
  | gY : port_name
  | gD : port_name
  | gQ : port_name
  | gC : port_name
deriving DecidableEq, Repr

inductive param_name where
  | pCLKPOL : Nat → param_name
  | pPOL : param_name
deriving DecidableEq, Repr

structure cell_inst where
  cname : cell_name
  ctype : cell_type
  cports : List (port_name × SigSpec)
  cparams : List (param_name × Bool)
deriving DecidableEq, Repr

structure module_t where
  cells : List cell_inst
  conns : List (SigSpec × SigSpec)
  nwires : Nat
deriving DecidableEq, Repr

def fresh_id (m : module_t) : module_t × Nat :=
  ({ m with nwires := m.nwires + 1 }, m.nwires)

/-- `module->addWire(NEW_ID, width)`. -/
def add_wire (m : module_t) (width : Nat) : module_t × SigSpec :=
  ({ m with nwires := m.nwires + 1 },
   (List.range width).map (fun i => SigBit.wirebit m.nwires i))

/-- `module->Eq(NEW_ID, a, b)`. -/
def add_eq (m : module_t) (a b : SigSpec) : module_t × SigSpec :=
  let w := add_wire m 1
  let f := fresh_id w.1
  ({ f.1 with
     cells := f.1.cells ++
       [{ cname := .fresh f.2, ctype := .eq_cell
          cports := [(.gA, a), (.gB, b), (.gY, w.2)], cparams := [] }] },
   w.2)

/-- `module->Mux(NEW_ID, a, b, s)`: output is `b` when `s`, else `a`. -/
def add_mux (m : module_t) (a b s : SigSpec) : module_t × SigSpec :=
  let w := add_wire m a.length
  let f := fresh_id w.1
  ({ f.1 with
     cells := f.1.cells ++
       [{ cname := .fresh f.2, ctype := .mux_cell
          cports := [(.gA, a), (.gB, b), (.gS, s), (.gY, w.2)], cparams := [] }] },
   w.2)

/-- `module->addDff(NEW_ID, clk, d, q, pol)`. -/
def add_dff (m : module_t) (clk : SigBit) (d q : SigSpec) (pol : Bool) : module_t :=
  let f := fresh_id m
  { f.1 with
    cells := f.1.cells ++
      [{ cname := .fresh f.2, ctype := .dff_cell
         cports := [(.gC, [clk]), (.gD, d), (.gQ, q)], cparams := [(.pPOL, pol)] }] }

/-- `module->addPmux(NEW_ID, a, b, s, y)`. -/
def add_pmux (m : module_t) (a b s y : SigSpec) : module_t :=
  let f := fresh_id m
  { f.1 with
    cells := f.1.cells ++
      [{ cname := .fresh f.2, ctype := .pmux_cell
         cports := [(.gA, a), (.gB, b), (.gS, s), (.gY, y)], cparams := [] }] }

/-- The `dout_cache` (line 459): keyed by the logical read-data slice,
accumulating the per-tile `(addr_ok_q, bram_dout)` vectors. -/
def cache_append (c : List (SigSpec × (SigSpec × SigSpec))) (k sel dout : SigSpec) :
    List (SigSpec × (SigSpec × SigSpec)) :=
  match c with
  | [] => [(k, (sel, dout))]
  | (k2, v) :: rest =>
    if k2 = k then (k2, (v.1 ++ sel, v.2 ++ dout)) :: rest
    else (k2, v) :: cache_append rest k sel dout

/-- Drop bit positions whose logical data slice bit is not a wire, from
both the slice and the BRAM data-out vector (lines 510-514). -/
def prune_unwired (sig_data bram_dout : SigSpec) : SigSpec × SigSpec :=
  let z := (sig_data.zip bram_dout).filter (fun p => p.1.isWire)
  (z.map (·.1), z.map (·.2))

/-- Accumulator for one grid instance: the module being extended, the
instance's port connections, its clock dictionary, and the global
`dout_cache`. -/
structure stitch_acc where
  m : module_t
  cports : List (port_name × SigSpec)
  clocks : List (Nat × SigBit)
  dout_cache : List (SigSpec × (SigSpec × SigSpec))

/-- Emission of one portinfo onto one grid instance (lines 470-529):
address decode, gated write-enable slice, data slice (read ports get a
fresh data-out wire, pruning and the registered address match), and the
address port. -/
def emit_pi (bram : bram_t) (grid_d grid_a : Nat) (acc : stitch_acc)
    (pi : portinfo_t) : stitch_acc :=
  let clocks :=
    if pi.clocks ≠ 0 ∧ (dictGet acc.clocks pi.clocks = none ∨ pi.sig_clock.isWire = true)
    then dictSet acc.clocks pi.clocks pi.sig_clock else acc.clocks
  let ma :=
    if bram.abits < pi.sig_addr.length then
      let extra_addr := extract pi.sig_addr bram.abits (pi.sig_addr.length - bram.abits)
      add_eq acc.m extra_addr (constSig grid_a extra_addr.length)
    else (acc.m, [])
  let m := ma.1
  let addr_ok := ma.2
  let me :=
    if pi.enable ≠ 0 then
      let sig_en := extract (extend_u0 pi.sig_en ((grid_d + 1) * pi.enable))
        (grid_d * pi.enable) pi.enable
      let ms :=
        if addr_ok ≠ [] then add_mux m (constSig 0 sig_en.length) sig_en addr_ok
        else (m, sig_en)
      (ms.1, acc.cports ++ [(.pEN pi.group pi.index, ms.2)])
    else (m, acc.cports)
  let m := me.1
  let cports := me.2
  let sig_data := extract (extend_u0 pi.sig_data ((grid_d + 1) * bram.dbits))
    (grid_d * bram.dbits) bram.dbits
  let step :=
    if pi.wrmode = 1 then
      (m, cports ++ [(.pDATA pi.group pi.index, sig_data)], acc.dout_cache)
    else
      let mw := add_wire m bram.dbits
      let pr := prune_unwired sig_data mw.2
      let mq :=
        if pi.clocks ≠ 0 ∧ addr_ok ≠ [] then
          let w2 := add_wire mw.1 1
          (add_dff w2.1 pi.sig_clock addr_ok w2.2 pi.effective_clkpol, w2.2)
        else (mw.1, addr_ok)
      (mq.1, cports ++ [(.pDATA pi.group pi.index, mw.2)],
       cache_append acc.dout_cache pr.1 mq.2 pr.2)
  { m := step.1
    cports := step.2.1 ++ [(.pADDR pi.group pi.index, extend_u0 pi.sig_addr bram.abits)]
    clocks := clocks
    dout_cache := step.2.2 }

/-- Emission of one grid instance (lines 461-537): all portinfos of the
matching replica, then the CLK ports and CLKPOL parameters. -/
def emit_instance (bram : bram_t) (cellid : Nat) (cmax kmax : Nat)
    (cp : List (Nat × Bool)) (pis : List portinfo_t)
    (s : module_t × List (SigSpec × (SigSpec × SigSpec)))
    (pos : Nat × Nat × Nat) : module_t × List (SigSpec × (SigSpec × SigSpec)) :=
  let acc := (pis.filter (fun pi => decide (pi.dupidx = pos.2.2))).foldl
    (emit_pi bram pos.1 pos.2.1)
    { m := s.1, cports := [], clocks := [], dout_cache := s.2 }
  let c : cell_inst :=
    { cname := .inst cellid pos.1 pos.2.1 pos.2.2
      ctype := .bram_cell bram.name
      cports := acc.cports ++
        acc.clocks.map (fun p => (.pCLK ((p.1 - 1) % cmax + 1), [p.2]))
      cparams := (cp.filter (fun p => decide (1 < p.1))).map
        (fun p => (.pCLKPOL ((p.1 - 1) % kmax + 1), p.2)) }
  ({ acc.m with cells := acc.m.cells ++ [c] }, acc.dout_cache)

/-- The values taken by a grid loop `for (g = 0; g*step < bound; g++)`
(lines 461-462).  For `step > 0` the loop guard is monotone, so the
values are exactly the `g < bound` with `g*step < bound`; `step = 0`
with `bound > 0` does not terminate in the source. -/
def grid_range (bound step : Nat) : List Nat :=
  (List.range bound).filter (fun g => decide (g * step < bound))

def grid_positions (mem : mem_cell_t) (bram : bram_t) (dc : Nat) :
    List (Nat × Nat × Nat) :=
  (grid_range mem.width bram.dbits).flatMap (fun gd =>
    (grid_range mem.size (2 ^ bram.abits)).flatMap (fun ga =>
      (List.range dc).map (fun di => (gd, ga, di))))

/-- Resolution of the `dout_cache` (lines 539-551): a direct connection
for a single untiled read, else a priority multiplexer. -/
def resolve_dout (m : module_t)
    (cache : List (SigSpec × (SigSpec × SigSpec))) : module_t :=
  cache.foldl
    (fun m e =>
      if e.2.1 = [] then { m with conns := m.conns ++ [(e.1, e.2.2)] }
      else add_pmux m (List.replicate e.1.length SigBit.Sx) e.2.2 e.2.1 e.1)
    m

def remove_cell (m : module_t) (nm : cell_name) : module_t :=
  { m with cells := m.cells.filter (fun c => decide (c.cname ≠ nm)) }

/-- `replace_cell`: on assignment failure the module is returned
unchanged with `false`; on success the grid is emitted, the read-data
cache resolved, and the original cell removed last. -/
def replace_cell (m : module_t) (cellid : Nat) (mem : mem_cell_t)
    (bram : bram_t) : module_t × Bool :=
  match port_assignment mem bram with
  | none => (m, false)
  | some rst =>
    let pis0 := bram.make_portinfos
    let s2 := (grid_positions mem bram rst.dup_count).foldl
      (emit_instance bram cellid (clocks_max_of pis0) (clkpol_max_of pis0)
        rst.a.clock_polarities rst.a.portinfos)
      (m, [])
    (remove_cell (resolve_dout s2.1 s2.2) (.orig cellid), true)

/-! ### The match evaluator and the per-cell driver loop -/

/-- The property keys of `match_properties`; `other` stands for any
further (unknown) key a match rule may reference. -/
inductive prop_key where
  | words : prop_key
  | abits : prop_key
  | dbits : prop_key
  | wports : prop_key
  | rports : prop_key
  | bits : prop_key
  | ports : prop_key
  | awaste : prop_key
  | dwaste : prop_key
  | waste : prop_key
  | other : Nat → prop_key
deriving DecidableEq, Repr

/-- `rules_t::match_t`. -/
structure match_t where
  name : Nat
  min_limits : List (prop_key × Int)
  max_limits : List (prop_key × Int)
deriving DecidableEq, Repr

/-- The base property set of a memory cell (lines 561-568). -/
def init_props (mem : mem_cell_t) : List (prop_key × Int) :=
  [(.words, (mem.size : Int)), (.abits, (mem.abits : Int)),
   (.dbits, (mem.width : Int)), (.wports, (mem.wr_ports : Int)),
   (.rports, (mem.rd_ports : Int)),
   (.bits, (mem.size : Int) * (mem.width : Int)),
   (.ports, (mem.wr_ports : Int) + (mem.rd_ports : Int))]

/-- The per-rule waste properties (lines 588-597). -/
def add_waste_props (props : List (prop_key × Int)) (bram : bram_t) :
    List (prop_key × Int) :=
  let words := (dictGet props .words).getD 0
  let aover := words % ((2 : Int) ^ bram.abits)
  let awaste := if aover ≠ 0 then (2 : Int) ^ bram.abits - aover else 0
  let props := dictSet props .awaste awaste
  let dbits := (dictGet props .dbits).getD 0
  let dover := dbits % (bram.dbits : Int)
  let dwaste := if dover ≠ 0 then (bram.dbits : Int) - dover else 0
  let props := dictSet props .dwaste dwaste
  dictSet props .waste
    (awaste * (bram.dbits : Int) + dwaste * (2 : Int) ^ bram.abits - awaste * dwaste)

inductive limit_result where
  | fatal : limit_result
  | rejected : limit_result
  | passed : limit_result
deriving DecidableEq, Repr

/-- The `min` limit loop (lines 602-611): an unknown key is a fatal
error, a violated limit rejects the rule and stops the scan. -/
def check_min_limits (props : List (prop_key × Int)) :
    List (prop_key × Int) → limit_result
  | [] => .passed
  | (k, v) :: rest =>
    match dictGet props k with
    | none => .fatal
    | some pv => if v ≤ pv then check_min_limits props rest else .rejected

/-- The `max` limit loop (lines 612-621). -/
def check_max_limits (props : List (prop_key × Int)) :
    List (prop_key × Int) → limit_result
  | [] => .passed
  | (k, v) :: rest =>
    match dictGet props k with
    | none => .fatal
    | some pv => if pv ≤ v then check_max_limits props rest else .rejected

/-- Evaluation of one match rule: all `min` limits, then all `max`
limits. -/
def eval_match (props : List (prop_key × Int)) (mt : match_t) : limit_result :=
  match check_min_limits props mt.min_limits with
  | .passed => check_max_limits props mt.max_limits
  | r => r

inductive handle_result where
  | fatal : handle_result
  | replaced : Nat → handle_result
  | no_match : handle_result
deriving DecidableEq, Repr

/-- Result of the driver loop: the possibly rewritten module, the
outcome and the list of rule indices whose BRAM was attempted (i.e. for
which `replace_cell` ran). -/
structure handle_out where
  m : module_t
  res : handle_result
  attempts : List Nat
deriving Repr

/-- The rule loop of `handle_cell` (lines 575-633): rules in declared
order; a missing BRAM description or an unknown property key is fatal;
BRAMs that failed once are skipped; the loop stops at the first
successful replacement. -/
def handle_loop (m : module_t) (cellid : Nat) (mem : mem_cell_t)
    (brams : List (Nat × bram_t)) :
    List match_t → Nat → List (prop_key × Int) → List Nat → handle_out
  | [], _, _, _ => { m := m, res := .no_match, attempts := [] }
  | mt :: rest, i, props, failed =>
    match dictGet brams mt.name with
    | none => { m := m, res := .fatal, attempts := [] }
    | some bram =>
      if failed.contains mt.name then
        handle_loop m cellid mem brams rest (i + 1) props failed
      else
        let props := add_waste_props props bram
        match eval_match props mt with
        | .fatal => { m := m, res := .fatal, attempts := [] }
        | .rejected => handle_loop m cellid mem brams rest (i + 1) props failed
        | .passed =>
          let rc := replace_cell m cellid mem bram
          if rc.2 then { m := rc.1, res := .replaced i, attempts := [i] }
          else
            let out := handle_loop m cellid mem brams rest (i + 1) props
              (failed ++ [mt.name])
            { out with attempts := i :: out.attempts }

def handle_cell (m : module_t) (cellid : Nat) (mem : mem_cell_t)
    (brams : List (Nat × bram_t)) (ms : List match_t) : handle_out :=
  handle_loop m cellid mem brams ms 0 (init_props mem) []

/-! ### Concrete instances used to evaluate the development -/

/-- A memory with 5 words of 3 bits (only the matcher looks at it). -/
def memW5 : mem_cell_t :=
  { size := 5, abits := 3, width := 3, wr_ports := 0, wr_clken := [], wr_clkpol := []
    wr_en := [], wr_clk := [], wr_data := [], wr_addr := []
    rd_ports := 0, rd_clken := [], rd_clkpol := [], rd_clk := [], rd_data := []
    rd_addr := [] }

/-- A BRAM with `abits = 2`, `dbits = 4` (only the matcher looks at it). -/
def bramA2D4 : bram_t :=
  { name := 7, groups := 0, abits := 2, dbits := 4, init := 0
    ports := [], wrmode := [], enable := [], transp := [], clocks := [], clkpol := [] }

/-- A dual-group BRAM: one write group and one read group sharing clock
cohort 1, one port each, 4 byte-enables over 4 data bits. -/
def bramRW : bram_t :=
  { name := 9, groups := 2, abits := 2, dbits := 4, init := 0
    ports := [1, 1], wrmode := [1, 0], enable := [4, 0], transp := [0, 0]
    clocks := [1, 1], clkpol := [1, 1] }

def clkW : SigBit := SigBit.wirebit 100 0

/-- A 4x4 memory with one synchronous write port and two synchronous
read ports, all on the same clock. -/
def memW1R2 : mem_cell_t :=
  { size := 4, abits := 2, width := 4, wr_ports := 1
    wr_clken := [true], wr_clkpol := [true]
    wr_en := List.replicate 4 (SigBit.wirebit 5 0)
    wr_clk := [clkW]
    wr_data := (List.range 4).map (SigBit.wirebit 6)
    wr_addr := (List.range 2).map (SigBit.wirebit 7)
    rd_ports := 2, rd_clken := [true, true], rd_clkpol := [true, true]
    rd_clk := [clkW, clkW]
    rd_data := (List.range 8).map (SigBit.wirebit 8)
    rd_addr := (List.range 4).map (SigBit.wirebit 9) }

/-- A BRAM whose read group (clock cohort 2) goes unused when the memory
has no read ports. -/
def bramUnusedRd : bram_t :=
  { name := 3, groups := 2, abits := 2, dbits := 1, init := 0
    ports := [1, 1], wrmode := [1, 0], enable := [0, 0], transp := [0, 0]
    clocks := [1, 2], clkpol := [1, 1] }

/-- A 4x1 memory with a single synchronous write port and no read
ports. -/
def memW1R0 : mem_cell_t :=
  { size := 4, abits := 2, width := 1, wr_ports := 1
    wr_clken := [true], wr_clkpol := [true]
    wr_en := [SigBit.S1]
    wr_clk := [clkW]
    wr_data := [SigBit.wirebit 6 0]
    wr_addr := [SigBit.wirebit 7 0, SigBit.wirebit 7 1]
    rd_ports := 0, rd_clken := [], rd_clkpol := [], rd_clk := [], rd_data := []
    rd_addr := [] }

/-- A module holding just the original `$mem` cell, as cell number 42. -/
def modMem42 : module_t :=
  { cells := [{ cname := .orig 42, ctype := .mem_cell, cports := [], cparams := [] }]
    conns := [], nwires := 200 }

/-- A read-mode portinfo of replica 0 that is currently bound to logical
read port 0 (the state the read phase reaches before a duplication
step). -/
def piBoundRd : portinfo_t :=
  { group := 1, index := 0, dupidx := 0, wrmode := 0, enable := 0, transp := 0
    clocks := 1, clkpol := 1, sig_clock := clkW
    sig_addr := (List.range 2).map (SigBit.wirebit 9)
    sig_data := (List.range 4).map (SigBit.wirebit 8)
    sig_en := [], effective_clkpol := true, mapped_port := some 0 }

/-- A write-mode portinfo bound to logical write port 0 (the state the
write phase produces on `bramRW` / `memW1R2`). -/
def piBoundWr : portinfo_t :=
  { group := 0, index := 0, dupidx := 0, wrmode := 1, enable := 4, transp := 0
    clocks := 1, clkpol := 1, sig_clock := clkW
    sig_addr := (List.range 2).map (SigBit.wirebit 7)
    sig_data := (List.range 4).map (SigBit.wirebit 6)
    sig_en := [SigBit.wirebit 5 0], effective_clkpol := true, mapped_port := some 0 }

/-- Spec-side description of what the duplication step does to one
portinfo before replication: read-mode binding state is cleared, write
mode is untouched. -/
def clear_read_binding (pi : portinfo_t) : portinfo_t :=
  if pi.wrmode = 0 then
    { pi with
      mapped_port := none
      sig_clock := SigBit.S0
      sig_addr := []
      sig_data := []
      sig_en := [] }
  else pi

/-- Spec-side description of the appended replica: `dupidx` advances and
the cohort ids not shared with write groups shift into a fresh
namespace. -/
def dup_shift (cwr ckwr : List Nat) (cmax kmax : Nat) (pi : portinfo_t) : portinfo_t :=
  { pi with
    clocks :=
      if pi.clocks ≠ 0 ∧ cwr.contains pi.clocks = false then pi.clocks + cmax
      else pi.clocks
    clkpol :=
      if 1 < pi.clkpol ∧ ckwr.contains pi.clkpol = false then pi.clkpol + kmax
      else pi.clkpol
    dupidx := pi.dupidx + 1 }

/-- The clock-domain binding invariant of claim C6, restricted to the
portinfos that are actually bound: every mapped portinfo in a clock
cohort has its cohort's entry equal to its recorded clock and
polarity. -/
def cd_invariant (cd : List (Nat × (SigBit × Bool))) (pis : List portinfo_t) : Prop :=
  ∀ pi ∈ pis, pi.mapped_port.isSome = true → pi.clocks ≠ 0 →
    dictGet cd pi.clocks = some (pi.sig_clock, pi.effective_clkpol)

/-- Bound write-mode portinfos also agree with the post-write-phase
snapshot of the clock-domain map (used across rollbacks). -/
def wr_backup_invariant (backup : List (Nat × (SigBit × Bool)))
    (pis : List portinfo_t) : Prop :=
  ∀ pi ∈ pis, pi.wrmode ≠ 0 → pi.mapped_port.isSome = true → pi.clocks ≠ 0 →
    dictGet backup pi.clocks = some (pi.sig_clock, pi.effective_clkpol)

/-- Every write-mode portinfo's clock cohort id lies in the pre-scanned
write set, so duplication never shifts it. -/
def wr_clocks_invariant (cwr : List Nat) (pis : List portinfo_t) : Prop :=
  ∀ pi ∈ pis, pi.wrmode ≠ 0 → pi.clocks ∈ cwr

/-! ### Dictionary lemmas -/

theorem dictGet_set {α β : Type} [DecidableEq α] (l : List (α × β)) (k k2 : α) (v : β) :
    dictGet (dictSet l k v) k2 = if k2 = k then some v else dictGet l k2 := by
  induction l with
  | nil =>
    by_cases h : k2 = k
    · simp [dictGet, dictSet, h]
    · simp [dictGet, dictSet, h, Ne.symm h]
  | cons p rest ih =>
    obtain ⟨k3, v3⟩ := p
    by_cases h3 : k3 = k
    · subst h3
      by_cases h : k2 = k3
      · simp [dictGet, dictSet, h]
      · simp [dictGet, dictSet, h, Ne.symm h]
    · by_cases h : k3 = k2
      · subst h
        simp [dictGet, dictSet, h3, Ne.symm h3]
      · simp [dictGet, dictSet, h3, h, ih]

/-! ### Claim C2: the waste computation on the literal scenario -/

/-- Claim C2, counterexample: for `words = 5, width = 3` against
`abits = 2, dbits = 4` the evaluator computes `waste = 13`, not 15 as
the claim states. -/
theorem C2_counterexample :
    dictGet (add_waste_props (init_props memW5) bramA2D4) .waste = some 13 ∧
    (13 : Int) ≠ 15 := by
  constructor
  · rfl
  · decide

theorem check_min_passed_iff (props : List (prop_key × Int)) :
    ∀ limits, check_min_limits props limits = .passed ↔
      ∀ kv ∈ limits, ∃ pv, dictGet props kv.1 = some pv ∧ kv.2 ≤ pv := by
  intro limits
  induction limits with
  | nil => simp [check_min_limits]
  | cons kv rest ih =>
    obtain ⟨k, v⟩ := kv
    cases hk : dictGet props k with
    | none => simp [check_min_limits, hk]
    | some pv =>
      by_cases hv : v ≤ pv
      · simp [check_min_limits, hk, hv, ih]
      · simp [check_min_limits, hk, hv]

theorem check_max_passed_iff (props : List (prop_key × Int)) :
    ∀ limits, check_max_limits props limits = .passed ↔
      ∀ kv ∈ limits, ∃ pv, dictGet props kv.1 = some pv ∧ pv ≤ kv.2 := by
  intro limits
  induction limits with
  | nil => simp [check_max_limits]
  | cons kv rest ih =>
    obtain ⟨k, v⟩ := kv
    cases hk : dictGet props k with
    | none => simp [check_max_limits, hk]
    | some pv =>
      by_cases hv : pv ≤ v
      · simp [check_max_limits, hk, hv, ih]
      · simp [check_max_limits, hk, hv]

theorem check_min_fatal (props : List (prop_key × Int)) :
    ∀ limits, (∀ kv ∈ limits, ∀ pv, dictGet props kv.1 = some pv → kv.2 ≤ pv) →
      (∃ kv ∈ limits, dictGet props kv.1 = none) →
      check_min_limits props limits = .fatal := by
  intro limits
  induction limits with
  | nil => simp
  | cons kv rest ih =>
    obtain ⟨k, v⟩ := kv
    intro hall hex
    cases hk : dictGet props k with
    | none => simp [check_min_limits, hk]
    | some pv =>
      have hv : v ≤ pv := hall (k, v) (by simp) pv hk
      have : ∃ kv ∈ rest, dictGet props kv.1 = none := by
        obtain ⟨kv2, hm, hn⟩ := hex
        rcases List.mem_cons.mp hm with h | h
        · subst h; simp [hk] at hn
        · exact ⟨kv2, h, hn⟩
      simp [check_min_limits, hk, hv]
      exact ih (fun kv2 hm => hall kv2 (List.mem_cons_of_mem _ hm)) this

theorem check_max_fatal (props : List (prop_key × Int)) :
    ∀ limits, (∀ kv ∈ limits, ∀ pv, dictGet props kv.1 = some pv → pv ≤ kv.2) →
      (∃ kv ∈ limits, dictGet props kv.1 = none) →
      check_max_limits props limits = .fatal := by
  intro limits
  induction limits with
  | nil => simp
  | cons kv rest ih =>
    obtain ⟨k, v⟩ := kv
    intro hall hex
    cases hk : dictGet props k with
    | none => simp [check_max_limits, hk]
    | some pv =>
      have hv : pv ≤ v := hall (k, v) (by simp) pv hk
      have : ∃ kv ∈ rest, dictGet props kv.1 = none := by
        obtain ⟨kv2, hm, hn⟩ := hex
        rcases List.mem_cons.mp hm with h | h
        · subst h; simp [hk] at hn
        · exact ⟨kv2, h, hn⟩
      simp [check_max_limits, hk, hv]
      exact ih (fun kv2 hm => hall kv2 (List.mem_cons_of_mem _ hm)) this

theorem check_min_fatal_iff (props : List (prop_key × Int)) :
    ∀ limits, check_min_limits props limits = .fatal ↔
      ∃ j kv, limits.get? j = some kv ∧ dictGet props kv.1 = none ∧
        ∀ kv2 ∈ limits.take j, ∃ pv, dictGet props kv2.1 = some pv ∧
          kv2.2 ≤ pv := by
  intro limits
  induction limits with
  | nil =>
    simp [check_min_limits]
  | cons kv rest ih =>
    obtain ⟨k, v⟩ := kv
    cases hk : dictGet props k with
    | none =>
      simp only [check_min_limits, hk]
      constructor
      · intro _
        exact ⟨0, (k, v), by simp, hk, by simp⟩
      · intro _
        trivial
    | some pv =>
      by_cases hv : v ≤ pv
      · simp only [check_min_limits, hk, if_pos hv]
        rw [ih]
        constructor
        · rintro ⟨j, kv2, hg, hn, hall⟩
          refine ⟨j + 1, kv2, by simpa using hg, hn, ?_⟩
          intro kv3 hm
          rw [List.take_succ_cons] at hm
          rcases List.mem_cons.mp hm with h | h
          · rw [h]
            exact ⟨pv, hk, hv⟩
          · exact hall kv3 h
        · rintro ⟨j, kv2, hg, hn, hall⟩
          cases j with
          | zero =>
            rw [List.get?_cons_zero] at hg
            have hkv : (k, v) = kv2 := Option.some.inj hg
            exfalso
            rw [← hkv] at hn
            rw [hk] at hn
            exact Option.noConfusion hn
          | succ j2 =>
            refine ⟨j2, kv2, by simpa using hg, hn, ?_⟩
            intro kv3 hm
            refine hall kv3 ?_
            rw [List.take_succ_cons]
            exact List.mem_cons_of_mem _ hm
      · simp only [check_min_limits, hk, if_neg hv]
        constructor
        · intro h
          exact absurd h (by decide)
        · rintro ⟨j, kv2, hg, hn, hall⟩
          exfalso
          cases j with
          | zero =>
            rw [List.get?_cons_zero] at hg
            have hkv : (k, v) = kv2 := Option.some.inj hg
            rw [← hkv] at hn
            rw [hk] at hn
            exact Option.noConfusion hn
          | succ j2 =>
            obtain ⟨pv2, hk2, hv2⟩ := hall (k, v)
              (by rw [List.take_succ_cons]; exact List.mem_cons_self _ _)
            rw [hk] at hk2
            have hpv : pv = pv2 := Option.some.inj hk2
            rw [← hpv] at hv2
            exact hv hv2

theorem check_max_fatal_iff (props : List (prop_key × Int)) :
    ∀ limits, check_max_limits props limits = .fatal ↔
      ∃ j kv, limits.get? j = some kv ∧ dictGet props kv.1 = none ∧
        ∀ kv2 ∈ limits.take j, ∃ pv, dictGet props kv2.1 = some pv ∧
          pv ≤ kv2.2 := by
  intro limits
  induction limits with
  | nil =>
    simp [check_max_limits]
  | cons kv rest ih =>
    obtain ⟨k, v⟩ := kv
    cases hk : dictGet props k with
    | none =>
      simp only [check_max_limits, hk]
      constructor
      · intro _
        exact ⟨0, (k, v), by simp, hk, by simp⟩
      · intro _
        trivial
    | some pv =>
      by_cases hv : pv ≤ v
      · simp only [check_max_limits, hk, if_pos hv]
        rw [ih]
        constructor
        · rintro ⟨j, kv2, hg, hn, hall⟩
          refine ⟨j + 1, kv2, by simpa using hg, hn, ?_⟩
          intro kv3 hm
          rw [List.take_succ_cons] at hm
          rcases List.mem_cons.mp hm with h | h
          · rw [h]
            exact ⟨pv, hk, hv⟩
          · exact hall kv3 h
        · rintro ⟨j, kv2, hg, hn, hall⟩
          cases j with
          | zero =>
            rw [List.get?_cons_zero] at hg
            have hkv : (k, v) = kv2 := Option.some.inj hg
            exfalso
            rw [← hkv] at hn
            rw [hk] at hn
            exact Option.noConfusion hn
          | succ j2 =>
            refine ⟨j2, kv2, by simpa using hg, hn, ?_⟩
            intro kv3 hm
            refine hall kv3 ?_
            rw [List.take_succ_cons]
            exact List.mem_cons_of_mem _ hm
      · simp only [check_max_limits, hk, if_neg hv]
        constructor
        · intro h
          exact absurd h (by decide)
        · rintro ⟨j, kv2, hg, hn, hall⟩
          exfalso
          cases j with
          | zero =>
            rw [List.get?_cons_zero] at hg
            have hkv : (k, v) = kv2 := Option.some.inj hg
            rw [← hkv] at hn
            rw [hk] at hn
            exact Option.noConfusion hn
          | succ j2 =>
            obtain ⟨pv2, hk2, hv2⟩ := hall (k, v)
              (by rw [List.take_succ_cons]; exact List.mem_cons_self _ _)
            rw [hk] at hk2
            have hpv : pv = pv2 := Option.some.inj hk2
            rw [← hpv] at hv2
            exact hv hv2

/-- Claim C4, counterexample: a rule whose second `min` limit references
an unknown property is not a fatal error when its first `min` limit
already rejects the cell (here `min words 100` fails on `words = 5`), so
"referencing an unknown property key is a fatal error" is false as an
unconditional statement. -/
theorem C4_counterexample :
    dictGet (init_props memW5) (.other 0) = none ∧
    eval_match (init_props memW5)
      { name := 7, min_limits := [(.words, 100), (.other 0, 1)], max_limits := [] } =
      .rejected ∧
    limit_result.rejected ≠ .fatal := by
  refine ⟨rfl, rfl, by decide⟩

/-- Claim C4 (amended): a rule is accepted iff every `min` limit has
`properties[key] ≥ limit` and every `max` limit has
`properties[key] ≤ limit` (an unknown key never accepts); a rule with no
limits accepts every cell; and a rule is a fatal error exactly when the
first failing limit in scan order references an unknown property key
(`min` limits are checked before `max` limits, each in declaration
order): a `min` limit with an unknown key is fatal iff every earlier
`min` limit is present and satisfied, and a `max` limit with an unknown
key is fatal iff every `min` limit and every earlier `max` limit is
present and satisfied; in particular an earlier rejecting limit
suppresses the fatal error. -/
theorem C4_amended_theorem (props : List (prop_key × Int)) (mt : match_t) :
    (eval_match props mt = .passed ↔
      (∀ kv ∈ mt.min_limits, ∃ pv, dictGet props kv.1 = some pv ∧ kv.2 ≤ pv) ∧
      (∀ kv ∈ mt.max_limits, ∃ pv, dictGet props kv.1 = some pv ∧ pv ≤ kv.2)) ∧
    (mt.min_limits = [] → mt.max_limits = [] → eval_match props mt = .passed) ∧
    (eval_match props mt = .fatal ↔
      (∃ j kv, mt.min_limits.get? j = some kv ∧ dictGet props kv.1 = none ∧
        ∀ kv2 ∈ mt.min_limits.take j, ∃ pv, dictGet props kv2.1 = some pv ∧
          kv2.2 ≤ pv) ∨
      ((∀ kv ∈ mt.min_limits, ∃ pv, dictGet props kv.1 = some pv ∧
          kv.2 ≤ pv) ∧
        ∃ j kv, mt.max_limits.get? j = some kv ∧ dictGet props kv.1 = none ∧
          ∀ kv2 ∈ mt.max_limits.take j, ∃ pv, dictGet props kv2.1 = some pv ∧
            pv ≤ kv2.2)) := by
  refine ⟨?_, ?_, ?_⟩
  · cases hmin : check_min_limits props mt.min_limits with
    | passed =>
      constructor
      · intro h
        have h2 : check_max_limits props mt.max_limits = .passed := by
          simpa [eval_match, hmin] using h
        exact ⟨(check_min_passed_iff props mt.min_limits).mp hmin,
               (check_max_passed_iff props mt.max_limits).mp h2⟩
      · intro h
        simpa [eval_match, hmin] using (check_max_passed_iff props mt.max_limits).mpr h.2
    | fatal =>
      constructor
      · intro h
        simp [eval_match, hmin] at h
      · intro h
        have := (check_min_passed_iff props mt.min_limits).mpr h.1
        rw [hmin] at this
        exact absurd this (by decide)
    | rejected =>
      constructor
      · intro h
        simp [eval_match, hmin] at h
      · intro h
        have := (check_min_passed_iff props mt.min_limits).mpr h.1
        rw [hmin] at this
        exact absurd this (by decide)
  · intro h1 h2
    simp [eval_match, h1, h2, check_min_limits, check_max_limits]
  · cases hmin : check_min_limits props mt.min_limits with
    | fatal =>
      simp only [eval_match, hmin]
      constructor
      · intro _
        exact Or.inl ((check_min_fatal_iff props mt.min_limits).mp hmin)
      · intro _
        trivial
    | rejected =>
      simp only [eval_match, hmin]
      constructor
      · intro h
        exact absurd h (by decide)
      · rintro (hL | ⟨hminp, _⟩)
        · have := (check_min_fatal_iff props mt.min_limits).mpr hL
          rw [hmin] at this
          exact absurd this (by decide)
        · have := (check_min_passed_iff props mt.min_limits).mpr hminp
          rw [hmin] at this
          exact absurd this (by decide)
    | passed =>
      simp only [eval_match, hmin]
      rw [check_max_fatal_iff props mt.max_limits]
      constructor
      · intro h
        exact Or.inr ⟨(check_min_passed_iff props mt.min_limits).mp hmin, h⟩
      · rintro (hL | ⟨_, hR⟩)
        · have := (check_min_fatal_iff props mt.min_limits).mpr hL
          rw [hmin] at this
          exact absurd this (by decide)
        · exact hR

/-- Witness for C4: on the 5x3 memory's properties, a limitless rule is
accepted, and a rule whose first `min` limit references an unknown
property is fatal even though its second `min` limit (`min words 100`)
is violated: the scan reaches the unknown key first. -/
theorem C4_amended_theorem_witness :
    eval_match (init_props memW5) { name := 7, min_limits := [], max_limits := [] } =
      .passed ∧
    eval_match (init_props memW5)
      { name := 7, min_limits := [(.other 0, 1), (.words, 100)],
        max_limits := [] } = .fatal := by
  constructor
  · exact (C4_amended_theorem (init_props memW5)
      { name := 7, min_limits := [], max_limits := [] }).2.1 rfl rfl
  · exact (C4_amended_theorem (init_props memW5)
      { name := 7, min_limits := [(.other 0, 1), (.words, 100)],
        max_limits := [] }).2.2.mpr
      (Or.inl ⟨0, (.other 0, 1), rfl, rfl, by simp⟩)

/-! ### The write-enable structure scan -/

theorem div_shift (s q r : Nat) (hs : 0 < s) (hr : r < s) : (r + s * q) / s = q := by
  rw [Nat.add_mul_div_left _ _ hs, Nat.div_eq_of_lt hr]
  omega

theorem ceil_div_mult (s n : Nat) (hs : 0 < s) (h : n % s = 0) :
    (n + s - 1) / s = n / s := by
  have hd := Nat.div_add_mod n s
  have h2 : n + s - 1 = (s - 1) + s * (n / s) := by omega
  rw [h2, div_shift s (n / s) (s - 1) hs (by omega)]

theorem succ_div_mult (s n : Nat) (hs : 0 < s) (h : n % s = 0) :
    (n + s) / s = n / s + 1 := by
  have hd := Nat.div_add_mod n s
  have hq : s * (n / s + 1) = s * (n / s) + s := by ring
  have h2 : n + s = 0 + s * (n / s + 1) := by omega
  rw [h2, div_shift s (n / s + 1) 0 hs hs]

theorem pred_div_nonmult (s n : Nat) (hs : 0 < s) (h : n % s ≠ 0) :
    (n - 1) / s = n / s := by
  have hd := Nat.div_add_mod n s
  have hr : n % s < s := Nat.mod_lt n hs
  have h2 : n - 1 = (n % s - 1) + s * (n / s) := by omega
  rw [h2, div_shift s (n / s) (n % s - 1) hs (by omega)]

theorem ceil_div_nonmult (s n : Nat) (hs : 0 < s) (h : n % s ≠ 0) :
    (n + s - 1) / s = n / s + 1 := by
  have hd := Nat.div_add_mod n s
  have hr : n % s < s := Nat.mod_lt n hs
  have hq : s * (n / s + 1) = s * (n / s) + s := by ring
  have h2 : n + s - 1 = (n % s - 1) + s * (n / s + 1) := by omega
  rw [h2, div_shift s (n / s + 1) (n % s - 1) hs (by omega)]

theorem succ_div_nonmult (s n : Nat) (hs : 0 < s) (h : n % s ≠ 0) :
    (n + s) / s = n / s + 1 := by
  have hd := Nat.div_add_mod n s
  have hr : n % s < s := Nat.mod_lt n hs
  have hq : s * (n / s + 1) = s * (n / s) + s := by ring
  have h2 : n + s = n % s + s * (n / s + 1) := by omega
  rw [h2, div_shift s (n / s + 1) (n % s) hs hr]

theorem div_mul_of_mult (s n : Nat) (h : n % s = 0) : n / s * s = n := by
  have hd := Nat.div_add_mod n s
  have hc : n / s * s = s * (n / s) := Nat.mul_comm _ _
  omega

/-- Closed form of `en_scan_go` when the BRAM has byte enables
(`enable ≠ 0` and a positive lane stride `dbits / enable`): the scan
succeeds iff every bit agrees with the bit at its lane start, the
running `last_en_bit` is the most recent lane-start bit, and `sig_en`
holds one bit per lane. -/
theorem en_scan_go_spec (f : Nat → SigBit) (e d : Nat) (he : e ≠ 0)
    (hs : 0 < d / e) : ∀ n, en_scan_go f e d n =
      if ∀ i < n, f i = f (i / (d / e) * (d / e)) then
        some ((if n = 0 then SigBit.S1 else f ((n - 1) / (d / e) * (d / e))),
              (List.range ((n + d / e - 1) / (d / e))).map (fun k => f (k * (d / e))))
      else none := by
  set s := d / e with hsdef
  intro n
  induction n with
  | zero =>
    rw [en_scan_go, if_pos (by omega)]
    rw [show 0 + s - 1 = s - 1 from by omega, Nat.div_eq_of_lt (show s - 1 < s from by omega)]
    simp
  | succ n ih =>
    rw [en_scan_go, ih]
    by_cases hcond : ∀ i < n, f i = f (i / s * s)
    · rw [if_pos hcond, Option.some_bind]
      by_cases hmod : n % s = 0
      · have hstep : en_scan_step f e d
            ((if n = 0 then SigBit.S1 else f ((n - 1) / s * s)),
             (List.range ((n + s - 1) / s)).map (fun k => f (k * s))) n =
            some (f n, ((List.range ((n + s - 1) / s)).map (fun k => f (k * s))) ++ [f n]) := by
          simp [en_scan_step, he, hmod]
        have hcond2 : ∀ i < n + 1, f i = f (i / s * s) := by
          intro i hi
          rcases Nat.lt_succ_iff_lt_or_eq.mp hi with h | h
          · exact hcond i h
          · subst h
            rw [div_mul_of_mult s i hmod]
        have h1 : (n + 1 + s - 1) / s = n / s + 1 := by
          rw [show n + 1 + s - 1 = n + s from by omega, succ_div_mult s n hs hmod]
        have h2 : (n + s - 1) / s = n / s := ceil_div_mult s n hs hmod
        rw [hstep, if_pos hcond2, if_neg (show ¬ n + 1 = 0 from by omega),
          Nat.add_sub_cancel, h1, h2, List.range_succ, List.map_append,
          div_mul_of_mult s n hmod]
        simp [div_mul_of_mult s n hmod]
      · have hn0 : n ≠ 0 := fun h => hmod (by simp [h])
        have hidx : (n - 1) / s = n / s := pred_div_nonmult s n hs hmod
        by_cases heq : f (n / s * s) = f n
        · have hstep : en_scan_step f e d
              ((if n = 0 then SigBit.S1 else f ((n - 1) / s * s)),
               (List.range ((n + s - 1) / s)).map (fun k => f (k * s))) n =
              some ((if n = 0 then SigBit.S1 else f ((n - 1) / s * s)),
                (List.range ((n + s - 1) / s)).map (fun k => f (k * s))) := by
            simp [en_scan_step, he, hmod, hn0, hidx, heq]
          have hcond2 : ∀ i < n + 1, f i = f (i / s * s) := by
            intro i hi
            rcases Nat.lt_succ_iff_lt_or_eq.mp hi with h | h
            · exact hcond i h
            · subst h
              exact heq.symm
          have h1 : (n + 1 + s - 1) / s = (n + s - 1) / s := by
            rw [show n + 1 + s - 1 = n + s from by omega,
              succ_div_nonmult s n hs hmod, ceil_div_nonmult s n hs hmod]
          rw [hstep, if_pos hcond2, if_neg hn0,
            if_neg (show ¬ n + 1 = 0 from by omega), Nat.add_sub_cancel, h1, hidx]
        · have hstep : en_scan_step f e d
              ((if n = 0 then SigBit.S1 else f ((n - 1) / s * s)),
               (List.range ((n + s - 1) / s)).map (fun k => f (k * s))) n = none := by
            simp [en_scan_step, he, hmod, hn0, hidx, heq]
          rw [hstep, if_neg (show ¬ ∀ i < n + 1, f i = f (i / s * s) from
            fun h => heq (h n (by omega)).symm)]
    · rw [if_neg hcond, Option.none_bind, if_neg]
      intro h
      exact hcond (fun i hi => h i (by omega))

/-- Lane-start form of the agreement condition is equivalent to
pairwise equality within each lane. -/
theorem lane_eq_iff (f : Nat → SigBit) (w s : Nat) (hs : 0 < s) :
    (∀ i < w, f i = f (i / s * s)) ↔
      (∀ i, i < w → ∀ j, j < w → i / s = j / s → f i = f j) := by
  constructor
  · intro h i hi j hj hij
    rw [h i hi, h j hj, hij]
  · intro h i hi
    refine h i hi (i / s * s) (lt_of_le_of_lt (Nat.div_mul_le_self i s) hi) ?_
    rw [Nat.mul_div_cancel _ hs]

/-! ### The find-first scan over the portinfo vector -/

theorem find_port_go_none_iff {α : Type} (p : portinfo_t → Option α) :
    ∀ (l : List portinfo_t) (i : Nat),
      find_port_go p i l = none ↔ ∀ pi ∈ l, p pi = none := by
  intro l
  induction l with
  | nil => simp [find_port_go]
  | cons pi rest ih =>
    intro i
    cases hp : p pi with
    | some a => simp [find_port_go, hp]
    | none => simp [find_port_go, hp, ih]

theorem find_port_go_some {α : Type} (p : portinfo_t → Option α) :
    ∀ (l : List portinfo_t) (i j : Nat) (a : α),
      find_port_go p i l = some (j, a) →
      i ≤ j ∧ (∃ pi, l.get? (j - i) = some pi ∧ p pi = some a) ∧
        ∀ k < j - i, ∀ pi2, l.get? k = some pi2 → p pi2 = none := by
  intro l
  induction l with
  | nil => intro i j a h; simp [find_port_go] at h
  | cons pi rest ih =>
    intro i j a h
    cases hp : p pi with
    | some a0 =>
      rw [find_port_go, hp] at h
      cases h
      refine ⟨le_refl _, ⟨pi, by simp, hp⟩, ?_⟩
      intro k hk
      omega
    | none =>
      rw [find_port_go, hp] at h
      obtain ⟨hij, ⟨pi2, hget, hp2⟩, hmin⟩ := ih (i + 1) j a h
      refine ⟨by omega, ⟨pi2, ?_, hp2⟩, ?_⟩
      · have h2 : j - i = (j - (i + 1)) + 1 := by omega
        rw [h2, List.get?_cons_succ]
        exact hget
      · intro k hk pi3 hget3
        match k, hget3 with
        | 0, hget3 =>
          rw [List.get?_cons_zero] at hget3
          cases hget3
          exact hp
        | k + 1, hget3 =>
          rw [List.get?_cons_succ] at hget3
          exact hmin k (by omega) pi3 hget3

theorem find_port_none_iff {α : Type} (pis : List portinfo_t) (start : Nat)
    (p : portinfo_t → Option α) :
    find_port pis start p = none ↔
      ∀ j, start ≤ j → ∀ pi, pis.get? j = some pi → p pi = none := by
  rw [find_port, find_port_go_none_iff]
  constructor
  · intro h j hj pi hget
    refine h pi ?_
    rw [List.mem_iff_get?]
    refine ⟨j - start, ?_⟩
    rw [List.get?_drop]
    rwa [Nat.add_sub_cancel' hj]
  · intro h pi hmem
    obtain ⟨k, hget⟩ := List.mem_iff_get?.mp hmem
    rw [List.get?_drop] at hget
    exact h (start + k) (by omega) pi hget

theorem find_port_some {α : Type} (pis : List portinfo_t) (start : Nat)
    (p : portinfo_t → Option α) (j : Nat) (a : α) :
    find_port pis start p = some (j, a) →
      start ≤ j ∧ (∃ pi, pis.get? j = some pi ∧ p pi = some a) ∧
        ∀ k, start ≤ k → k < j → ∀ pi2, pis.get? k = some pi2 → p pi2 = none := by
  intro h
  obtain ⟨h1, ⟨pi, hget, hp⟩, hmin⟩ := find_port_go_some p (pis.drop start) start j a h
  rw [List.get?_drop, Nat.add_sub_cancel' h1] at hget
  refine ⟨h1, ⟨pi, hget, hp⟩, ?_⟩
  intro k hk1 hk2 pi2 hget2
  refine hmin (k - start) (by omega) pi2 ?_
  rw [List.get?_drop, Nat.add_sub_cancel' hk1]
  exact hget2

theorem wr_port_ok_eq (mem : mem_cell_t) (bram : bram_t)
    (cd : List (Nat × (SigBit × Bool))) (cp : List (Nat × Bool)) (w : Nat)
    (pi : portinfo_t) (hw : pi.wrmode = 1)
    (hc : clk_compat cd cp (wr_clkdom mem w).1 (wr_clkdom mem w).2 pi = true) :
    wr_port_ok mem bram cd cp w pi =
      en_scan (fun i => mem.wr_en.getD (i + w * mem.width) SigBit.S0)
        mem.width pi.enable bram.dbits := by
  simp only [wr_port_ok, hw]
  simp [hc]

/-- Claim C5: with `e = pi.enable > 0` byte-enables over `dbits` bits
(positive lane stride `dbits / e`), a write-mode portinfo passing the
clock check is accepted iff the write-enable bits of the logical port
are pairwise equal within every lane `i / (dbits / e)`; the derived
`sig_en` has one bit per lane (bit `k` is the enable bit at lane start
`k * (dbits / e)`); and the surrounding scan takes the first acceptable
portinfo at or after the cursor, failing only when none remains. -/
theorem C5_theorem (mem : mem_cell_t) (bram : bram_t)
    (cd : List (Nat × (SigBit × Bool))) (cp : List (Nat × Bool)) (w : Nat)
    (pi : portinfo_t) (he : pi.enable ≠ 0) (hs : 0 < bram.dbits / pi.enable)
    (hw : pi.wrmode = 1)
    (hc : clk_compat cd cp (wr_clkdom mem w).1 (wr_clkdom mem w).2 pi = true) :
    ((wr_port_ok mem bram cd cp w pi).isSome = true ↔
      (∀ i, i < mem.width → ∀ j, j < mem.width →
        i / (bram.dbits / pi.enable) = j / (bram.dbits / pi.enable) →
        mem.wr_en.getD (i + w * mem.width) SigBit.S0 =
          mem.wr_en.getD (j + w * mem.width) SigBit.S0)) ∧
    (∀ sg, wr_port_ok mem bram cd cp w pi = some sg →
      sg.length = (mem.width + bram.dbits / pi.enable - 1) / (bram.dbits / pi.enable) ∧
      ∀ k, k < sg.length → sg.get? k =
        some (mem.wr_en.getD (k * (bram.dbits / pi.enable) + w * mem.width) SigBit.S0)) ∧
    (∀ (pis : List portinfo_t) (start : Nat) (p : portinfo_t → Option SigSpec),
      (find_port pis start p = none ↔
        ∀ j2, start ≤ j2 → ∀ pi2, pis.get? j2 = some pi2 → p pi2 = none) ∧
      (∀ j2 a, find_port pis start p = some (j2, a) → start ≤ j2 ∧
        (∃ pi2, pis.get? j2 = some pi2 ∧ p pi2 = some a) ∧
        ∀ k, start ≤ k → k < j2 → ∀ pi3, pis.get? k = some pi3 → p pi3 = none)) := by
  have hwp := wr_port_ok_eq mem bram cd cp w pi hw hc
  refine ⟨?_, ?_, ?_⟩
  · rw [hwp, en_scan, en_scan_go_spec _ _ _ he hs]
    by_cases hcond : ∀ i < mem.width,
        mem.wr_en.getD (i + w * mem.width) SigBit.S0 =
          mem.wr_en.getD (i / (bram.dbits / pi.enable) * (bram.dbits / pi.enable) +
            w * mem.width) SigBit.S0
    · rw [if_pos hcond]
      constructor
      · intro _
        exact (lane_eq_iff _ mem.width _ hs).mp hcond
      · intro _
        rfl
    · rw [if_neg hcond]
      constructor
      · intro h
        simp at h
      · intro h
        exact absurd ((lane_eq_iff _ mem.width _ hs).mpr h) hcond
  · intro sg hsg
    rw [hwp, en_scan, en_scan_go_spec _ _ _ he hs] at hsg
    by_cases hcond : ∀ i < mem.width,
        mem.wr_en.getD (i + w * mem.width) SigBit.S0 =
          mem.wr_en.getD (i / (bram.dbits / pi.enable) * (bram.dbits / pi.enable) +
            w * mem.width) SigBit.S0
    · rw [if_pos hcond] at hsg
      simp only [Option.map_some', Option.some.injEq] at hsg
      subst hsg
      constructor
      · simp
      · intro k hk
        simp only [List.length_map, List.length_range] at hk
        rw [List.get?_map, List.get?_range hk]
        rfl
    · rw [if_neg hcond] at hsg
      simp at hsg
  · intro pis start p
    exact ⟨find_port_none_iff pis start p, fun j2 a h => find_port_some pis start p j2 a h⟩

/-- Witness for C5: the write portinfo of `bramRW` (4 byte-enables over
4 data bits) accepts write port 0 of `memW1R2`, whose four enable bits
are the same wire bit. -/
theorem C5_theorem_witness :
    (wr_port_ok memW1R2 bramRW [] [(0, false), (1, true)]
      0 { group := 0, index := 0, dupidx := 0, wrmode := 1, enable := 4, transp := 0
          clocks := 1, clkpol := 1, sig_clock := SigBit.S0, sig_addr := []
          sig_data := [], sig_en := [], effective_clkpol := false
          mapped_port := none }).isSome = true :=
  ((C5_theorem memW1R2 bramRW [] [(0, false), (1, true)] 0
      { group := 0, index := 0, dupidx := 0, wrmode := 1, enable := 4, transp := 0
        clocks := 1, clkpol := 1, sig_clock := SigBit.S0, sig_addr := []
        sig_data := [], sig_en := [], effective_clkpol := false
        mapped_port := none }
      (by decide) (by decide) (by decide) (by decide)).1).mpr (by decide)

/-! ### Claim C10: write ports without byte enables -/

/-- Closed form of the enable scan when the portinfo has no byte
enables: the scan accepts iff every enable bit is the constant 1, and
the derived `sig_en` is empty. -/
theorem en_scan_go_zero (f : Nat → SigBit) (d : Nat) :
    ∀ n, en_scan_go f 0 d n =
      if ∀ i < n, f i = SigBit.S1 then some (SigBit.S1, []) else none := by
  intro n
  induction n with
  | zero => simp [en_scan_go]
  | succ n ih =>
    rw [en_scan_go, ih]
    by_cases hcond : ∀ i < n, f i = SigBit.S1
    · rw [if_pos hcond, Option.some_bind]
      by_cases heq : f n = SigBit.S1
      · have hstep : en_scan_step f 0 d (SigBit.S1, []) n = some (SigBit.S1, []) := by
          simp [en_scan_step, heq]
        rw [hstep, if_pos]
        intro i hi
        rcases Nat.lt_succ_iff_lt_or_eq.mp hi with h | h
        · exact hcond i h
        · subst h
          exact heq
      · have hstep : en_scan_step f 0 d (SigBit.S1, []) n = none := by
          simp [en_scan_step, Ne.symm heq]
        rw [hstep, if_neg (show ¬ ∀ i < n + 1, f i = SigBit.S1 from
          fun h => heq (h n (by omega)))]
    · rw [if_neg hcond, Option.none_bind, if_neg]
      intro h
      exact hcond (fun i hi => h i (by omega))

theorem emit_pi_en_mem (bram : bram_t) (gd ga : Nat) (acc : stitch_acc)
    (pi : portinfo_t) (g i2 : Nat) (sg : SigSpec) :
    (port_name.pEN g i2, sg) ∈ (emit_pi bram gd ga acc pi).cports →
    (port_name.pEN g i2, sg) ∈ acc.cports ∨
      (g = pi.group ∧ i2 = pi.index ∧ pi.enable ≠ 0) := by
  intro hx
  by_cases hab : bram.abits < pi.sig_addr.length <;>
  by_cases hen : pi.enable = 0 <;>
  by_cases hwr : pi.wrmode = 1 <;>
  by_cases hck : pi.clocks = 0 <;>
  · simp [emit_pi, hab, hen, hwr, hck, add_eq, add_wire, add_mux, add_dff,
      fresh_id] at hx
    try tauto

theorem emit_pi_cells_super (bram : bram_t) (gd ga : Nat) (acc : stitch_acc)
    (pi : portinfo_t) (c : cell_inst) (hc : c ∈ acc.m.cells) :
    c ∈ (emit_pi bram gd ga acc pi).m.cells := by
  by_cases hab : bram.abits < pi.sig_addr.length <;>
  by_cases hen : pi.enable = 0 <;>
  by_cases hwr : pi.wrmode = 1 <;>
  by_cases hck : pi.clocks = 0 <;>
  · simp [emit_pi, hab, hen, hwr, hck, add_eq, add_wire, add_mux, add_dff,
      fresh_id, hc]

theorem emit_pi_cells_new (bram : bram_t) (gd ga : Nat) (acc : stitch_acc)
    (pi : portinfo_t) :
    ∀ c ∈ (emit_pi bram gd ga acc pi).m.cells, c ∈ acc.m.cells ∨
      ((∀ k, c.cname ≠ cell_name.orig k) ∧
       (c.ctype = .eq_cell ∨ c.ctype = .mux_cell ∨ c.ctype = .dff_cell) ∧
       (∀ g i2 sg, (port_name.pEN g i2, sg) ∉ c.cports)) := by
  intro c hx
  by_cases hab : bram.abits < pi.sig_addr.length <;>
  by_cases hen : pi.enable = 0 <;>
  by_cases hwr : pi.wrmode = 1 <;>
  by_cases hck : pi.clocks = 0 <;>
  · simp [emit_pi, hab, hen, hwr, hck, add_eq, add_wire, add_mux, add_dff,
      fresh_id] at hx
    aesop

theorem emit_pi_countP (bram : bram_t) (gd ga : Nat) (acc : stitch_acc)
    (pi : portinfo_t) (q : cell_inst → Bool)
    (hq : ∀ c, (c.ctype = .eq_cell ∨ c.ctype = .mux_cell ∨ c.ctype = .dff_cell) →
      q c = false) :
    ((emit_pi bram gd ga acc pi).m.cells).countP q = (acc.m.cells).countP q := by
  have hqe : ∀ nm ps pr, q ⟨nm, .eq_cell, ps, pr⟩ = false :=
    fun nm ps pr => hq _ (Or.inl rfl)
  have hqm : ∀ nm ps pr, q ⟨nm, .mux_cell, ps, pr⟩ = false :=
    fun nm ps pr => hq _ (Or.inr (Or.inl rfl))
  have hqd : ∀ nm ps pr, q ⟨nm, .dff_cell, ps, pr⟩ = false :=
    fun nm ps pr => hq _ (Or.inr (Or.inr rfl))
  by_cases hab : bram.abits < pi.sig_addr.length <;>
  by_cases hen : pi.enable = 0 <;>
  by_cases hwr : pi.wrmode = 1 <;>
  by_cases hck : pi.clocks = 0 <;>
  · simp [emit_pi, hab, hen, hwr, hck, add_eq, add_wire, add_mux, add_dff,
      fresh_id, List.countP_append, List.countP_cons, hqe, hqm, hqd]

theorem emit_fold_cells_super (bram : bram_t) (gd ga : Nat) :
    ∀ (l : List portinfo_t) (acc : stitch_acc) (c : cell_inst), c ∈ acc.m.cells →
      c ∈ (l.foldl (emit_pi bram gd ga) acc).m.cells := by
  intro l
  induction l with
  | nil => intro acc c hc; exact hc
  | cons pi rest ih =>
    intro acc c hc
    exact ih _ c (emit_pi_cells_super bram gd ga acc pi c hc)

theorem emit_fold_cells_new (bram : bram_t) (gd ga : Nat) :
    ∀ (l : List portinfo_t) (acc : stitch_acc),
      ∀ c ∈ (l.foldl (emit_pi bram gd ga) acc).m.cells, c ∈ acc.m.cells ∨
        ((∀ k, c.cname ≠ cell_name.orig k) ∧
         (c.ctype = .eq_cell ∨ c.ctype = .mux_cell ∨ c.ctype = .dff_cell) ∧
         (∀ g i2 sg, (port_name.pEN g i2, sg) ∉ c.cports)) := by
  intro l
  induction l with
  | nil => intro acc c hc; exact Or.inl hc
  | cons pi rest ih =>
    intro acc c hc
    rcases ih _ c hc with h | h
    · exact emit_pi_cells_new bram gd ga acc pi c h
    · exact Or.inr h

theorem emit_fold_countP (bram : bram_t) (gd ga : Nat) (q : cell_inst → Bool)
    (hq : ∀ c, (c.ctype = .eq_cell ∨ c.ctype = .mux_cell ∨ c.ctype = .dff_cell) →
      q c = false) :
    ∀ (l : List portinfo_t) (acc : stitch_acc),
      ((l.foldl (emit_pi bram gd ga) acc).m.cells).countP q =
        (acc.m.cells).countP q := by
  intro l
  induction l with
  | nil => intro acc; rfl
  | cons pi rest ih =>
    intro acc
    rw [List.foldl_cons, ih, emit_pi_countP bram gd ga acc pi q hq]

theorem emit_fold_en (bram : bram_t) (gd ga : Nat) :
    ∀ (l : List portinfo_t) (acc : stitch_acc) (g i2 : Nat) (sg : SigSpec),
      (port_name.pEN g i2, sg) ∈ (l.foldl (emit_pi bram gd ga) acc).cports →
      (port_name.pEN g i2, sg) ∈ acc.cports ∨
        ∃ pi ∈ l, pi.group = g ∧ pi.index = i2 ∧ pi.enable ≠ 0 := by
  intro l
  induction l with
  | nil => intro acc g i2 sg h; exact Or.inl h
  | cons pi rest ih =>
    intro acc g i2 sg h
    rcases ih _ g i2 sg h with h2 | h2
    · rcases emit_pi_en_mem bram gd ga acc pi g i2 sg h2 with h3 | h3
      · exact Or.inl h3
      · exact Or.inr ⟨pi, by simp, h3.1.symm, h3.2.1.symm, h3.2.2⟩
    · obtain ⟨pi2, hm, hp⟩ := h2
      exact Or.inr ⟨pi2, List.mem_cons_of_mem _ hm, hp⟩

theorem emit_instance_cells_super (bram : bram_t) (cid cmax kmax : Nat)
    (cp2 : List (Nat × Bool)) (pis : List portinfo_t)
    (s : module_t × List (SigSpec × (SigSpec × SigSpec))) (pos : Nat × Nat × Nat)
    (c : cell_inst) (hc : c ∈ s.1.cells) :
    c ∈ (emit_instance bram cid cmax kmax cp2 pis s pos).1.cells := by
  simp only [emit_instance, List.mem_append]
  exact Or.inl (emit_fold_cells_super bram pos.1 pos.2.1 _ _ c hc)

theorem emit_instance_cells_new (bram : bram_t) (cid cmax kmax : Nat)
    (cp2 : List (Nat × Bool)) (pis : List portinfo_t)
    (s : module_t × List (SigSpec × (SigSpec × SigSpec))) (pos : Nat × Nat × Nat) :
    ∀ c ∈ (emit_instance bram cid cmax kmax cp2 pis s pos).1.cells,
      c ∈ s.1.cells ∨
      ((∀ k, c.cname ≠ cell_name.orig k) ∧
        (∀ g i2 sg, (port_name.pEN g i2, sg) ∈ c.cports →
          ∃ pi ∈ pis, pi.dupidx = pos.2.2 ∧ pi.group = g ∧ pi.index = i2 ∧
            pi.enable ≠ 0)) := by
  intro c hc
  simp only [emit_instance, List.mem_append] at hc
  rcases hc with hc | hc
  · rcases emit_fold_cells_new bram pos.1 pos.2.1 _ _ c hc with h | h
    · exact Or.inl h
    · exact Or.inr ⟨h.1, fun g i2 sg hmem => absurd hmem (h.2.2 g i2 sg)⟩
  · simp only [List.mem_singleton] at hc
    subst hc
    refine Or.inr ⟨by simp, ?_⟩
    intro g i2 sg hmem
    simp only [List.mem_append] at hmem
    rcases hmem with hmem | hmem
    · rcases emit_fold_en bram pos.1 pos.2.1 _ _ g i2 sg hmem with h | h
      · simp at h
      · obtain ⟨pi, hpi, h1, h2, h3⟩ := h
        rw [List.mem_filter] at hpi
        exact ⟨pi, hpi.1, by simpa using hpi.2, h1, h2, h3⟩
    · simp only [List.mem_map] at hmem
      obtain ⟨p, _, hp⟩ := hmem
      simp at hp

theorem emit_instance_countP (bram : bram_t) (cid cmax kmax : Nat)
    (cp2 : List (Nat × Bool)) (pis : List portinfo_t)
    (s : module_t × List (SigSpec × (SigSpec × SigSpec))) (pos : Nat × Nat × Nat) :
    ((emit_instance bram cid cmax kmax cp2 pis s pos).1.cells).countP
        (fun c => decide (c.ctype = .bram_cell bram.name)) =
      ((s.1.cells).countP (fun c => decide (c.ctype = .bram_cell bram.name))) + 1 := by
  simp only [emit_instance, List.countP_append]
  rw [emit_fold_countP bram pos.1 pos.2.1 _
    (fun c hc => by rcases hc with h | h | h <;> simp [h])]
  simp

theorem emit_instance_inst_mem (bram : bram_t) (cid cmax kmax : Nat)
    (cp2 : List (Nat × Bool)) (pis : List portinfo_t)
    (s : module_t × List (SigSpec × (SigSpec × SigSpec))) (pos : Nat × Nat × Nat) :
    ∃ c ∈ (emit_instance bram cid cmax kmax cp2 pis s pos).1.cells,
      c.cname = cell_name.inst cid pos.1 pos.2.1 pos.2.2 ∧
      c.ctype = cell_type.bram_cell bram.name := by
  simp only [emit_instance]
  refine ⟨_, List.mem_append_right _ (List.mem_singleton_self _), rfl, rfl⟩

theorem resolve_dout_cells_super (cache : List (SigSpec × (SigSpec × SigSpec))) :
    ∀ (m : module_t) (c : cell_inst), c ∈ m.cells →
      c ∈ (resolve_dout m cache).cells := by
  induction cache with
  | nil => intro m c hc; exact hc
  | cons e rest ih =>
    intro m c hc
    rw [resolve_dout, List.foldl_cons]
    by_cases hsel : e.2.1 = []
    · exact ih _ c (by simp [hsel, hc])
    · refine ih _ c ?_
      simp [hsel, add_pmux, fresh_id, hc]

theorem resolve_dout_cells_new (cache : List (SigSpec × (SigSpec × SigSpec))) :
    ∀ (m : module_t), ∀ c ∈ (resolve_dout m cache).cells, c ∈ m.cells ∨
      ((∀ k, c.cname ≠ cell_name.orig k) ∧
       (∀ g i2 sg, (port_name.pEN g i2, sg) ∉ c.cports)) := by
  induction cache with
  | nil => intro m c hc; exact Or.inl hc
  | cons e rest ih =>
    intro m c hc
    rw [resolve_dout, List.foldl_cons] at hc
    by_cases hsel : e.2.1 = []
    · rw [if_pos hsel] at hc
      rcases ih { m with conns := m.conns ++ [(e.1, e.2.2)] } c hc with h | h
      · exact Or.inl h
      · exact Or.inr h
    · rw [if_neg hsel] at hc
      rcases ih _ c hc with h | h
      · simp only [add_pmux, fresh_id, List.mem_append] at h
        rcases h with h | h
        · exact Or.inl h
        · simp only [List.mem_singleton] at h
          subst h
          exact Or.inr ⟨by simp, by simp⟩
      · exact Or.inr h

theorem resolve_dout_countP (cache : List (SigSpec × (SigSpec × SigSpec)))
    (q : cell_inst → Bool) (hq : ∀ c, c.ctype = .pmux_cell → q c = false) :
    ∀ (m : module_t), ((resolve_dout m cache).cells).countP q =
      (m.cells).countP q := by
  have hqp : ∀ nm ps pr, q ⟨nm, .pmux_cell, ps, pr⟩ = false := fun nm ps pr => hq _ rfl
  induction cache with
  | nil => intro m; rfl
  | cons e rest ih =>
    intro m
    rw [resolve_dout, List.foldl_cons]
    by_cases hsel : e.2.1 = []
    · rw [if_pos hsel]
      exact ih _
    · rw [if_neg hsel]
      have h2 := ih (add_pmux m (List.replicate e.1.length SigBit.Sx) e.2.2 e.2.1 e.1)
      rw [resolve_dout] at h2
      rw [h2]
      simp [add_pmux, fresh_id, List.countP_append, List.countP_cons, hqp]

theorem emit_positions_cells_super (bram : bram_t) (cid cmax kmax : Nat)
    (cp2 : List (Nat × Bool)) (pis : List portinfo_t) :
    ∀ (poss : List (Nat × Nat × Nat)) (s : module_t × List (SigSpec × (SigSpec × SigSpec)))
      (c : cell_inst), c ∈ s.1.cells →
      c ∈ (poss.foldl (emit_instance bram cid cmax kmax cp2 pis) s).1.cells := by
  intro poss
  induction poss with
  | nil => intro s c hc; exact hc
  | cons p rest ih =>
    intro s c hc
    exact ih _ c (emit_instance_cells_super bram cid cmax kmax cp2 pis s p c hc)

theorem emit_positions_cells_new (bram : bram_t) (cid cmax kmax : Nat)
    (cp2 : List (Nat × Bool)) (pis : List portinfo_t) :
    ∀ (poss : List (Nat × Nat × Nat)) (s : module_t × List (SigSpec × (SigSpec × SigSpec))),
      ∀ c ∈ (poss.foldl (emit_instance bram cid cmax kmax cp2 pis) s).1.cells,
        c ∈ s.1.cells ∨
        ((∀ k, c.cname ≠ cell_name.orig k) ∧
          (∀ g i2 sg, (port_name.pEN g i2, sg) ∈ c.cports →
            ∃ pi ∈ pis, pi.group = g ∧ pi.index = i2 ∧ pi.enable ≠ 0)) := by
  intro poss
  induction poss with
  | nil => intro s c hc; exact Or.inl hc
  | cons p rest ih =>
    intro s c hc
    rcases ih _ c hc with h | h
    · rcases emit_instance_cells_new bram cid cmax kmax cp2 pis s p c h with h2 | h2
      · exact Or.inl h2
      · refine Or.inr ⟨h2.1, ?_⟩
        intro g i2 sg hmem
        obtain ⟨pi, hpi, _, h3, h4, h5⟩ := h2.2 g i2 sg hmem
        exact ⟨pi, hpi, h3, h4, h5⟩
    · exact Or.inr h

theorem emit_positions_countP (bram : bram_t) (cid cmax kmax : Nat)
    (cp2 : List (Nat × Bool)) (pis : List portinfo_t) :
    ∀ (poss : List (Nat × Nat × Nat)) (s : module_t × List (SigSpec × (SigSpec × SigSpec))),
      ((poss.foldl (emit_instance bram cid cmax kmax cp2 pis) s).1.cells).countP
          (fun c => decide (c.ctype = .bram_cell bram.name)) =
        ((s.1.cells).countP (fun c => decide (c.ctype = .bram_cell bram.name))) +
          poss.length := by
  intro poss
  induction poss with
  | nil => intro s; rfl
  | cons p rest ih =>
    intro s
    rw [List.foldl_cons, ih, emit_instance_countP bram cid cmax kmax cp2 pis s p]
    simp
    omega

theorem emit_positions_inst_mem (bram : bram_t) (cid cmax kmax : Nat)
    (cp2 : List (Nat × Bool)) (pis : List portinfo_t) :
    ∀ (poss : List (Nat × Nat × Nat)) (s : module_t × List (SigSpec × (SigSpec × SigSpec))),
      ∀ pos ∈ poss,
        ∃ c ∈ (poss.foldl (emit_instance bram cid cmax kmax cp2 pis) s).1.cells,
          c.cname = cell_name.inst cid pos.1 pos.2.1 pos.2.2 ∧
          c.ctype = cell_type.bram_cell bram.name := by
  intro poss
  induction poss with
  | nil => intro s pos h; simp at h
  | cons p rest ih =>
    intro s pos hpos
    rcases List.mem_cons.mp hpos with h | h
    · subst h
      obtain ⟨c, hc, h1, h2⟩ := emit_instance_inst_mem bram cid cmax kmax cp2 pis s pos
      exact ⟨c, emit_positions_cells_super bram cid cmax kmax cp2 pis rest _ c hc, h1, h2⟩
    · exact ih _ pos h

/-- Claim C10: a write-mode portinfo with `enable = 0` is accepted for a
logical write port only when every bit of that port's `WR_EN` vector is
the constant 1, in which case the derived `sig_en` is empty; and on any
successful replacement every emitted cell carries an EN port only for a
portinfo whose `enable` is non-zero (so a portinfo with `enable = 0`
yields no EN port on its BRAM instances). -/
theorem C10_theorem (mem : mem_cell_t) (bram : bram_t)
    (cd : List (Nat × (SigBit × Bool))) (cp : List (Nat × Bool)) (w : Nat)
    (pi : portinfo_t) (he : pi.enable = 0) (hw : pi.wrmode = 1)
    (hc : clk_compat cd cp (wr_clkdom mem w).1 (wr_clkdom mem w).2 pi = true) :
    ((wr_port_ok mem bram cd cp w pi = some [] ↔
      ∀ i, i < mem.width →
        mem.wr_en.getD (i + w * mem.width) SigBit.S0 = SigBit.S1) ∧
    (∀ sg, wr_port_ok mem bram cd cp w pi = some sg → sg = [])) ∧
    (∀ (m : module_t) (cid : Nat) (rst : read_state),
      port_assignment mem bram = some rst →
      ∀ c ∈ (replace_cell m cid mem bram).1.cells, c ∈ m.cells ∨
        ∀ g i2 sg, (port_name.pEN g i2, sg) ∈ c.cports →
          ∃ pi2 ∈ rst.a.portinfos, pi2.group = g ∧ pi2.index = i2 ∧
            pi2.enable ≠ 0) := by
  constructor
  · have hwp := wr_port_ok_eq mem bram cd cp w pi hw hc
    rw [he] at hwp
    constructor
    · rw [hwp, en_scan, en_scan_go_zero _ bram.dbits mem.width]
      by_cases hcond : ∀ i < mem.width,
          mem.wr_en.getD (i + w * mem.width) SigBit.S0 = SigBit.S1
      · rw [if_pos hcond]
        constructor
        · intro _
          exact hcond
        · intro _
          rfl
      · rw [if_neg hcond]
        constructor
        · intro h
          exact absurd h (by simp)
        · intro h
          exact absurd h hcond
    · intro sg hsg
      rw [hwp, en_scan, en_scan_go_zero _ bram.dbits mem.width] at hsg
      by_cases hcond : ∀ i < mem.width,
          mem.wr_en.getD (i + w * mem.width) SigBit.S0 = SigBit.S1
      · rw [if_pos hcond] at hsg
        simp only [Option.map_some', Option.some.injEq] at hsg
        exact hsg.symm
      · rw [if_neg hcond] at hsg
        simp at hsg
  · intro m cid rst hrst c hcmem
    simp only [replace_cell, hrst] at hcmem
    rw [remove_cell] at hcmem
    simp only [List.mem_filter] at hcmem
    rcases resolve_dout_cells_new _ _ c hcmem.1 with h | h
    · rcases emit_positions_cells_new bram cid (clocks_max_of bram.make_portinfos)
        (clkpol_max_of bram.make_portinfos) rst.a.clock_polarities rst.a.portinfos
        (grid_positions mem bram rst.dup_count) (m, []) c h with h2 | h2
      · exact Or.inl h2
      · exact Or.inr h2.2
    · exact Or.inr (fun g i2 sg hmem => absurd hmem (h.2 g i2 sg))

/-- Witness for C10: the enable-less write portinfo of `bramUnusedRd`
accepts write port 0 of `memW1R0` (whose single `WR_EN` bit is constant
1) with an empty `sig_en`. -/
theorem C10_theorem_witness :
    wr_port_ok memW1R0 bramUnusedRd [] [(0, false), (1, true)] 0
      { group := 0, index := 0, dupidx := 0, wrmode := 1, enable := 0, transp := 0
        clocks := 1, clkpol := 1, sig_clock := SigBit.S0, sig_addr := []
        sig_data := [], sig_en := [], effective_clkpol := false
        mapped_port := none } = some [] :=
  (C10_theorem memW1R0 bramUnusedRd [] [(0, false), (1, true)] 0
      { group := 0, index := 0, dupidx := 0, wrmode := 1, enable := 0, transp := 0
        clocks := 1, clkpol := 1, sig_clock := SigBit.S0, sig_addr := []
        sig_data := [], sig_en := [], effective_clkpol := false
        mapped_port := none }
      (by decide) (by decide) (by decide)).1.1.mpr (by decide)

/-! ### Claim C7: termination of the read phase -/

theorem bind_rd_cursor (mem : mem_cell_t) (rst : read_state) (r slot : Nat) :
    ((bind_rd mem rst r slot).try_growing_more_read_ports =
        rst.try_growing_more_read_ports ∧
      (bind_rd mem rst r slot).grow_read_ports_cursor =
        rst.grow_read_ports_cursor) ∨
    ((bind_rd mem rst r slot).try_growing_more_read_ports = true ∧
      rst.grow_read_ports_cursor < (r : Int) ∧
      (bind_rd mem rst r slot).grow_read_ports_cursor = (r : Int)) := by
  cases h : rst.a.portinfos[slot]? with
  | none => left; simp [bind_rd, h]
  | some pi0 =>
    by_cases hlt : rst.grow_read_ports_cursor < (r : Int)
    · right
      refine ⟨?_, hlt, ?_⟩ <;> simp [bind_rd, h, hlt]
    · left
      constructor <;> simp [bind_rd, h, hlt]

theorem read_round_cursor (mem : mem_cell_t) :
    ∀ (ports : List Nat) (rst out : read_state),
      (read_round mem ports rst = .ok out ∨ read_round mem ports rst = .error out) →
      ((out.try_growing_more_read_ports = rst.try_growing_more_read_ports ∧
        out.grow_read_ports_cursor = rst.grow_read_ports_cursor) ∨
       (out.try_growing_more_read_ports = true ∧
        rst.grow_read_ports_cursor < out.grow_read_ports_cursor ∧
        ∃ r ∈ ports, out.grow_read_ports_cursor = (r : Int))) := by
  intro ports
  induction ports with
  | nil =>
    intro rst out h
    rcases h with h | h <;> rw [read_round] at h
    · cases h
      exact Or.inl ⟨rfl, rfl⟩
    · cases h
  | cons r rs ih =>
    intro rst out h
    have h2 : read_round mem (r :: rs) rst =
        match find_port rst.a.portinfos 0
            (rd_port_ok mem rst.a.clock_domains rst.a.clock_polarities r) with
        | none => .error rst
        | some (slot, _) => read_round mem rs (bind_rd mem rst r slot) := rfl
    cases hf : find_port rst.a.portinfos 0
        (rd_port_ok mem rst.a.clock_domains rst.a.clock_polarities r) with
    | none =>
      rw [h2, hf] at h
      rcases h with h | h
      · cases h
      · cases h
        exact Or.inl ⟨rfl, rfl⟩
    | some sl =>
      obtain ⟨slot, u⟩ := sl
      rw [h2, hf] at h
      have h3 := ih (bind_rd mem rst r slot) out h
      rcases bind_rd_cursor mem rst r slot with ⟨b1, b2⟩ | ⟨b1, b2, b3⟩
      · rcases h3 with ⟨c1, c2⟩ | ⟨c1, c2, rr, hrr, c3⟩
        · exact Or.inl ⟨by rw [c1, b1], by rw [c2, b2]⟩
        · exact Or.inr ⟨c1, by rw [b2] at c2; exact c2,
            rr, List.mem_cons_of_mem _ hrr, c3⟩
      · rcases h3 with ⟨c1, c2⟩ | ⟨c1, c2, rr, hrr, c3⟩
        · exact Or.inr ⟨by rw [c1, b1], by rw [c2, b3]; exact b2,
            r, List.mem_cons_self _ _, by rw [c2, b3]⟩
        · refine Or.inr ⟨c1, ?_, rr, List.mem_cons_of_mem _ hrr, c3⟩
          rw [b3] at c2
          omega

theorem read_phase_isSome (mem : mem_cell_t) (env : grow_env) :
    ∀ (fuel : Nat) (rst : read_state),
      rst.try_growing_more_read_ports = false →
      (mem.rd_ports : Int) - 1 - rst.grow_read_ports_cursor ≤ (fuel : Int) →
      (read_phase mem env fuel rst).isSome = true := by
  intro fuel
  induction fuel with
  | zero =>
    intro rst hng hfuel
    rw [read_phase]
    cases hr : read_round mem (List.range mem.rd_ports) rst with
    | ok rst2 => simp
    | error rst2 =>
      by_cases hg : rst2.try_growing_more_read_ports = true
      · rcases read_round_cursor mem (List.range mem.rd_ports) rst rst2 (Or.inr hr)
          with ⟨h1, _⟩ | ⟨_, h2, r, hrmem, h3⟩
        · rw [hng] at h1
          rw [h1] at hg
          exact absurd hg (by decide)
        · have hrlt : r < mem.rd_ports := List.mem_range.mp hrmem
          exfalso
          omega
      · simp [hg]
  | succ fuel2 ih =>
    intro rst hng hfuel
    rw [read_phase]
    cases hr : read_round mem (List.range mem.rd_ports) rst with
    | ok rst2 => simp
    | error rst2 =>
      by_cases hg : rst2.try_growing_more_read_ports = true
      · simp only [hg, if_true]
        rcases read_round_cursor mem (List.range mem.rd_ports) rst rst2 (Or.inr hr)
          with ⟨h1, _⟩ | ⟨_, h2, r, hrmem, h3⟩
        · rw [hng] at h1
          rw [h1] at hg
          exact absurd hg (by decide)
        · have hrlt : r < mem.rd_ports := List.mem_range.mp hrmem
          refine ih (grow_step env rst2) rfl ?_
          have hcur : (grow_step env rst2).grow_read_ports_cursor =
            rst2.grow_read_ports_cursor := rfl
          rw [hcur]
          omega
      · simp [hg]

/-- Claim C7: port assignment always terminates; with the number of
logical read ports as the duplication budget, the engine never runs out
of fuel, because each duplication step requires the grow cursor to have
strictly advanced (and it never exceeds the last read port). -/
theorem C7_theorem (mem : mem_cell_t) (bram : bram_t) :
    (assign_ports mem bram).isSome = true := by
  cases hw : write_phase mem bram with
  | none => simp [assign_ports, hw]
  | some st =>
    have h2 : assign_ports mem bram =
        read_phase mem (make_grow_env bram st) mem.rd_ports (init_read_state st) := by
      rw [assign_ports, hw]
    rw [h2]
    refine read_phase_isSome mem (make_grow_env bram st) mem.rd_ports
      (init_read_state st) rfl ?_
    have hcur : (init_read_state st).grow_read_ports_cursor = -1 := rfl
    rw [hcur]
    omega

/-! ### Claim C1: the duplication step -/

/-- Claim C1, counterexample: on `memW1R2` mapped to `bramRW` the read
phase fails at read port 1 with the single read-mode portinfo of replica
0 still bound to read port 0; the duplication step then clears that
existing portinfo's binding state as well (it becomes unbound), so the
binding of the earlier read port is not left intact and only re-created
by re-running the read loop from port 0. -/
theorem C1_counterexample :
    (match write_phase memW1R2 bramRW with
     | some st =>
       (match read_round memW1R2 (List.range memW1R2.rd_ports) (init_read_state st) with
        | .error rst2 =>
          rst2.try_growing_more_read_ports &&
          decide ((rst2.a.portinfos.map
              (fun pi : portinfo_t => (pi.wrmode, pi.dupidx, pi.mapped_port))) =
            [(1, 0, some 0), (0, 0, some 0)]) &&
          decide (((grow_step (make_grow_env bramRW st) rst2).a.portinfos.map
              (fun pi : portinfo_t => (pi.wrmode, pi.dupidx, pi.mapped_port))) =
            [(1, 0, some 0), (1, 1, some 0), (0, 0, none), (0, 1, none)])
        | .ok _ => false)
     | none => false) = true := by
  decide

theorem grow_portinfos_eq (dc cmax kmax : Nat) (cwr ckwr : List Nat) :
    ∀ pis : List portinfo_t,
      grow_portinfos dc cwr ckwr cmax kmax pis =
        pis.flatMap (fun pi =>
          if (clear_read_binding pi).dupidx = dc - 1 then
            [clear_read_binding pi, dup_shift cwr ckwr cmax kmax (clear_read_binding pi)]
          else [clear_read_binding pi]) := by
  intro pis
  induction pis with
  | nil => rfl
  | cons pi rest ih =>
    rw [List.flatMap_cons, ← ih, grow_portinfos]
    by_cases hw : pi.wrmode = 0 <;> by_cases hd : pi.dupidx = dc - 1 <;>
      simp [clear_read_binding, dup_shift, hw, hd]

/-- Claim C1 (amended): the duplication step appends, after each
portinfo of the last replica, a copy with `dupidx` incremented and the
non-write cohort ids shifted; it clears the binding state of ALL
read-mode portinfos (existing replicas included, not only the new one),
while write-mode portinfos — whose cohort ids lie in the write sets —
keep their binding state and cohort ids in both copies; the cohort maps
are rolled back to the post-write snapshot, the grow flag cleared and
the replica count incremented; the retry then re-runs the read-port
loop from read port 0 (re-binding the earlier read ports afresh), not
from the failing port onward. -/
theorem C1_amended_theorem (mem : mem_cell_t) (env : grow_env)
    (dc cmax kmax : Nat) (cwr ckwr : List Nat) (pis : List portinfo_t)
    (rst rst2 : read_state) (fuel : Nat) :
    (grow_portinfos dc cwr ckwr cmax kmax pis =
      pis.flatMap (fun pi =>
        if (clear_read_binding pi).dupidx = dc - 1 then
          [clear_read_binding pi, dup_shift cwr ckwr cmax kmax (clear_read_binding pi)]
        else [clear_read_binding pi])) ∧
    (∀ pi ∈ grow_portinfos dc cwr ckwr cmax kmax pis, pi.wrmode = 0 →
      pi.mapped_port = none ∧ pi.sig_addr = [] ∧ pi.sig_data = [] ∧ pi.sig_en = []) ∧
    (∀ pi ∈ pis, pi.wrmode ≠ 0 → cwr.contains pi.clocks = true →
      (1 < pi.clkpol → ckwr.contains pi.clkpol = true) →
      pi ∈ grow_portinfos dc cwr ckwr cmax kmax pis ∧
      (pi.dupidx = dc - 1 →
        { pi with dupidx := pi.dupidx + 1 } ∈ grow_portinfos dc cwr ckwr cmax kmax pis)) ∧
    ((grow_step env rst).a.clock_domains = env.backup_cd ∧
     (grow_step env rst).a.clock_polarities = env.backup_cp ∧
     (grow_step env rst).try_growing_more_read_ports = false ∧
     (grow_step env rst).dup_count = rst.dup_count + 1 ∧
     (grow_step env rst).grow_read_ports_cursor = rst.grow_read_ports_cursor) ∧
    (read_round mem (List.range mem.rd_ports) rst = .error rst2 →
      rst2.try_growing_more_read_ports = true →
      read_phase mem env (fuel + 1) rst = read_phase mem env fuel (grow_step env rst2)) := by
  refine ⟨grow_portinfos_eq dc cmax kmax cwr ckwr pis, ?_, ?_, ⟨rfl, rfl, rfl, rfl, rfl⟩, ?_⟩
  · intro pi hpi hw
    rw [grow_portinfos_eq dc cmax kmax cwr ckwr pis, List.mem_flatMap] at hpi
    obtain ⟨pi0, _, hmem⟩ := hpi
    by_cases hd : (clear_read_binding pi0).dupidx = dc - 1
    · rw [if_pos hd] at hmem
      simp only [List.mem_cons, List.not_mem_nil, or_false] at hmem
      rcases hmem with h | h <;> subst h <;>
        by_cases hw0 : pi0.wrmode = 0 <;>
        simp [clear_read_binding, dup_shift, hw0] at hw ⊢
    · rw [if_neg hd] at hmem
      simp only [List.mem_cons, List.not_mem_nil, or_false] at hmem
      subst hmem
      by_cases hw0 : pi0.wrmode = 0 <;>
        simp [clear_read_binding, hw0] at hw ⊢
  · intro pi hpi hw hcw hck
    rw [grow_portinfos_eq dc cmax kmax cwr ckwr pis]
    have hclear : clear_read_binding pi = pi := by
      simp [clear_read_binding, hw]
    constructor
    · rw [List.mem_flatMap]
      refine ⟨pi, hpi, ?_⟩
      rw [hclear]
      by_cases hd : pi.dupidx = dc - 1 <;> simp [hd]
    · intro hd
      rw [List.mem_flatMap]
      refine ⟨pi, hpi, ?_⟩
      rw [hclear, if_pos hd]
      have hcw2 : pi.clocks ∈ cwr := by simpa using hcw
      have hshift : dup_shift cwr ckwr cmax kmax pi = { pi with dupidx := pi.dupidx + 1 } := by
        simp only [dup_shift]
        by_cases hk : 1 < pi.clkpol
        · have hck2 : pi.clkpol ∈ ckwr := by simpa using hck hk
          simp [hcw2, hck2]
        · simp [hcw2, hk]
      rw [hshift]
      simp
  · intro hr hg
    rw [read_phase, hr]
    simp [hg]

/-- Witness for C1: on a concrete one-write-one-read portinfo vector
with `dup_count = 1`, write cohort set `{1}`, the bound write portinfo
survives the duplication step and its replica copy (with `dupidx = 1`
and unchanged binding) is appended. -/
theorem C1_amended_theorem_witness :
    piBoundWr ∈ grow_portinfos 1 [1] [] 1 1 [piBoundWr, piBoundRd] ∧
    { piBoundWr with dupidx := 1 } ∈ grow_portinfos 1 [1] [] 1 1 [piBoundWr, piBoundRd] := by
  have h := (C1_amended_theorem memW1R2
      (make_grow_env bramRW (init_state bramRW)) 1 1 1 [1] []
      [piBoundWr, piBoundRd] (init_read_state (init_state bramRW))
      (init_read_state (init_state bramRW)) 0).2.2.1 piBoundWr (by simp)
      (by decide) (by decide) (by decide)
  exact ⟨h.1, h.2 (by decide)⟩

/-- Claim C2 (amended): for `words = 5, width = 3` against a BRAM with
`abits = 2, dbits = 4` the evaluator computes `awaste = 3`, `dwaste = 1`
and `waste = 13`, and a `max waste 0` rule referencing that BRAM is
rejected. -/
theorem C2_amended_theorem :
    dictGet (add_waste_props (init_props memW5) bramA2D4) .awaste = some 3 ∧
    dictGet (add_waste_props (init_props memW5) bramA2D4) .dwaste = some 1 ∧
    dictGet (add_waste_props (init_props memW5) bramA2D4) .waste = some 13 ∧
    eval_match (add_waste_props (init_props memW5) bramA2D4)
      { name := 7, min_limits := [], max_limits := [(.waste, 0)] } = .rejected := by
  refine ⟨rfl, rfl, rfl, rfl⟩

/-! ### Claim C6: the clock-domain binding invariant -/

theorem clk_compat_facts (cd : List (Nat × (SigBit × Bool))) (cp : List (Nat × Bool))
    (clken : Bool) (clkdom : SigBit × Bool) (pi : portinfo_t)
    (h : clk_compat cd cp clken clkdom pi = true) :
    (clken = true → pi.clocks ≠ 0 ∧
      ∀ d, dictGet cd pi.clocks = some d → d = clkdom) ∧
    (clken = false → pi.clocks = 0) := by
  cases clken
  · rw [clk_compat] at h
    simp at h
    exact ⟨fun hc => absurd hc (by decide), fun _ => h⟩
  · rw [clk_compat] at h
    simp at h
    refine ⟨fun _ => ⟨h.1.1, ?_⟩, fun hc => absurd hc (by decide)⟩
    intro d hd
    have h2 := h.1.2
    rw [hd] at h2
    simpa using h2

theorem rd_port_ok_facts (mem : mem_cell_t) (cd : List (Nat × (SigBit × Bool)))
    (cp : List (Nat × Bool)) (r : Nat) (pi0 : portinfo_t)
    (h : rd_port_ok mem cd cp r pi0 = some ()) :
    pi0.wrmode = 0 ∧ pi0.mapped_port = none ∧
    clk_compat cd cp (rd_clkdom mem r).1 (rd_clkdom mem r).2 pi0 = true := by
  rw [rd_port_ok] at h
  by_cases hc : pi0.wrmode ≠ 0 ∨ pi0.mapped_port.isSome
  · rw [if_pos hc] at h
    exact absurd h (by simp)
  · rw [if_neg hc] at h
    push_neg at hc
    by_cases hcompat : clk_compat cd cp (rd_clkdom mem r).1 (rd_clkdom mem r).2 pi0 = true
    · exact ⟨hc.1, Option.not_isSome_iff_eq_none.mp (by simpa using hc.2), hcompat⟩
    · rw [if_neg hcompat] at h
      exact absurd h (by simp)

theorem wr_port_ok_facts (mem : mem_cell_t) (bram : bram_t)
    (cd : List (Nat × (SigBit × Bool))) (cp : List (Nat × Bool)) (w : Nat)
    (pi0 : portinfo_t) (sg : SigSpec) (h : wr_port_ok mem bram cd cp w pi0 = some sg) :
    pi0.wrmode = 1 ∧
    clk_compat cd cp (wr_clkdom mem w).1 (wr_clkdom mem w).2 pi0 = true := by
  rw [wr_port_ok] at h
  by_cases hc : pi0.wrmode ≠ 1
  · rw [if_pos hc] at h
    exact absurd h (by simp)
  · rw [if_neg hc] at h
    push_neg at hc
    by_cases hcompat : clk_compat cd cp (wr_clkdom mem w).1 (wr_clkdom mem w).2 pi0 = true
    · exact ⟨hc, hcompat⟩
    · rw [if_neg hcompat] at h
      exact absurd h (by simp)

theorem make_portinfos_unmapped (bram : bram_t) :
    ∀ pi ∈ bram.make_portinfos, pi.mapped_port = none := by
  intro pi hpi
  simp only [bram_t.make_portinfos, List.mem_flatMap, List.mem_map] at hpi
  obtain ⟨i, _, j, _, h⟩ := hpi
  rw [← h]

theorem make_portinfos_wr_clocks (bram : bram_t) :
    wr_clocks_invariant (clocks_wr_ports_of bram.make_portinfos)
      bram.make_portinfos := by
  intro pi hpi hw
  simp only [clocks_wr_ports_of, List.mem_map]
  exact ⟨pi, List.mem_filter.mpr ⟨hpi, by simpa using hw⟩, rfl⟩

theorem bind_rd_shape (mem : mem_cell_t) (rst : read_state) (r slot : Nat)
    (pi0 : portinfo_t) (hget : rst.a.portinfos.get? slot = some pi0) :
    (bind_rd mem rst r slot).a.portinfos = rst.a.portinfos.set slot
      { pi0 with
        mapped_port := some r
        sig_clock :=
          if (rd_clkdom mem r).1 then (rd_clkdom mem r).2.1 else pi0.sig_clock
        effective_clkpol :=
          if (rd_clkdom mem r).1 then (rd_clkdom mem r).2.2 else pi0.effective_clkpol
        sig_addr := extract mem.rd_addr (r * mem.abits) mem.abits
        sig_data := extract mem.rd_data (r * mem.width) mem.width } ∧
    (bind_rd mem rst r slot).a.clock_domains =
      (if (rd_clkdom mem r).1 then
        dictSet rst.a.clock_domains pi0.clocks (rd_clkdom mem r).2
       else rst.a.clock_domains) := by
  have hget2 : rst.a.portinfos[slot]? = some pi0 := by
    rw [← List.get?_eq_getElem?]
    exact hget
  constructor <;>
    by_cases hlt : rst.grow_read_ports_cursor < (r : Int) <;>
    simp [bind_rd, hget2, hlt]

theorem bind_wr_shape (mem : mem_cell_t) (st : assign_state) (w slot : Nat)
    (sig_en : SigSpec) (pi0 : portinfo_t)
    (hget : st.portinfos.get? slot = some pi0) :
    (bind_wr mem st w slot sig_en).portinfos = st.portinfos.set slot
      { pi0 with
        mapped_port := some w
        sig_clock :=
          if (wr_clkdom mem w).1 then (wr_clkdom mem w).2.1 else pi0.sig_clock
        effective_clkpol :=
          if (wr_clkdom mem w).1 then (wr_clkdom mem w).2.2 else pi0.effective_clkpol
        sig_en := sig_en
        sig_addr := extract mem.wr_addr (w * mem.abits) mem.abits
        sig_data := extract mem.wr_data (w * mem.width) mem.width } ∧
    (bind_wr mem st w slot sig_en).clock_domains =
      (if (wr_clkdom mem w).1 then
        dictSet st.clock_domains pi0.clocks (wr_clkdom mem w).2
       else st.clock_domains) := by
  have hget2 : st.portinfos[slot]? = some pi0 := by
    rw [← List.get?_eq_getElem?]
    exact hget
  constructor <;> simp [bind_wr, hget2]

theorem bind_rd_preserves (mem : mem_cell_t) (rst : read_state) (r slot : Nat)
    (cwr : List Nat) (backup : List (Nat × (SigBit × Bool))) (pi0 : portinfo_t)
    (hget : rst.a.portinfos.get? slot = some pi0)
    (hok : rd_port_ok mem rst.a.clock_domains rst.a.clock_polarities r pi0 = some ())
    (h1 : cd_invariant rst.a.clock_domains rst.a.portinfos)
    (h2 : wr_backup_invariant backup rst.a.portinfos)
    (h3 : wr_clocks_invariant cwr rst.a.portinfos) :
    cd_invariant (bind_rd mem rst r slot).a.clock_domains
      (bind_rd mem rst r slot).a.portinfos ∧
    wr_backup_invariant backup (bind_rd mem rst r slot).a.portinfos ∧
    wr_clocks_invariant cwr (bind_rd mem rst r slot).a.portinfos := by
  obtain ⟨hpis, hcd⟩ := bind_rd_shape mem rst r slot pi0 hget
  obtain ⟨hw0, _, hcompat⟩ := rd_port_ok_facts mem _ _ r pi0 hok
  obtain ⟨hct, hcf⟩ := clk_compat_facts _ _ _ _ _ hcompat
  refine ⟨?_, ?_, ?_⟩
  · intro pi hpi hmap hck
    rw [hpis] at hpi
    rw [hcd]
    rcases List.mem_or_eq_of_mem_set hpi with hold | hnew
    · have hbase := h1 pi hold hmap hck
      cases hc : (rd_clkdom mem r).1
      · rw [if_neg (by simp [hc])]
        exact hbase
      · rw [if_pos (by simp [hc])]
        rw [dictGet_set]
        by_cases heq : pi.clocks = pi0.clocks
        · rw [if_pos heq]
          have hd := (hct hc).2 (pi.sig_clock, pi.effective_clkpol)
            (by rw [← heq]; exact hbase)
          rw [← hd]
        · rw [if_neg heq]
          exact hbase
    · subst hnew
      cases hc : (rd_clkdom mem r).1
      · exact absurd (hcf hc) (by simpa using hck)
      · rw [if_pos (by simp [hc])]
        rw [dictGet_set]
        simp [hc]
  · intro pi hpi hw hmap hck
    rw [hpis] at hpi
    rcases List.mem_or_eq_of_mem_set hpi with hold | hnew
    · exact h2 pi hold hw hmap hck
    · subst hnew
      exact absurd hw0 (by simpa using hw)
  · intro pi hpi hw
    rw [hpis] at hpi
    rcases List.mem_or_eq_of_mem_set hpi with hold | hnew
    · exact h3 pi hold hw
    · subst hnew
      exact absurd hw0 (by simpa using hw)

theorem bind_wr_preserves (mem : mem_cell_t) (bram : bram_t) (st : assign_state)
    (w slot : Nat) (sig_en : SigSpec) (cwr : List Nat) (pi0 : portinfo_t)
    (hget : st.portinfos.get? slot = some pi0)
    (hok : wr_port_ok mem bram st.clock_domains st.clock_polarities w pi0 =
      some sig_en)
    (h1 : cd_invariant st.clock_domains st.portinfos)
    (h3 : wr_clocks_invariant cwr st.portinfos) :
    cd_invariant (bind_wr mem st w slot sig_en).clock_domains
      (bind_wr mem st w slot sig_en).portinfos ∧
    wr_clocks_invariant cwr (bind_wr mem st w slot sig_en).portinfos := by
  obtain ⟨hpis, hcd⟩ := bind_wr_shape mem st w slot sig_en pi0 hget
  obtain ⟨hw1, hcompat⟩ := wr_port_ok_facts mem bram _ _ w pi0 sig_en hok
  obtain ⟨hct, hcf⟩ := clk_compat_facts _ _ _ _ _ hcompat
  have hmem0 : pi0 ∈ st.portinfos := by
    have := List.get?_eq_some.mp hget
    obtain ⟨hlen, hval⟩ := this
    rw [← hval]
    exact List.get_mem _ _ _
  constructor
  · intro pi hpi hmap hck
    rw [hpis] at hpi
    rw [hcd]
    rcases List.mem_or_eq_of_mem_set hpi with hold | hnew
    · have hbase := h1 pi hold hmap hck
      cases hc : (wr_clkdom mem w).1
      · rw [if_neg (by simp [hc])]
        exact hbase
      · rw [if_pos (by simp [hc])]
        rw [dictGet_set]
        by_cases heq : pi.clocks = pi0.clocks
        · rw [if_pos heq]
          have hd := (hct hc).2 (pi.sig_clock, pi.effective_clkpol)
            (by rw [← heq]; exact hbase)
          rw [← hd]
        · rw [if_neg heq]
          exact hbase
    · subst hnew
      cases hc : (wr_clkdom mem w).1
      · exact absurd (hcf hc) (by simpa using hck)
      · rw [if_pos (by simp [hc])]
        rw [dictGet_set]
        simp [hc]
  · intro pi hpi hw
    rw [hpis] at hpi
    rcases List.mem_or_eq_of_mem_set hpi with hold | hnew
    · exact h3 pi hold hw
    · subst hnew
      have : pi0.clocks ∈ cwr := h3 pi0 hmem0 (by simp [hw1])
      simpa using this

theorem write_loop_preserves (mem : mem_cell_t) (bram : bram_t) (cwr : List Nat) :
    ∀ (ws : List Nat) (cursor : Nat) (st : assign_state) (out : Nat × assign_state),
      write_loop mem bram ws cursor st = some out →
      cd_invariant st.clock_domains st.portinfos →
      wr_clocks_invariant cwr st.portinfos →
      cd_invariant out.2.clock_domains out.2.portinfos ∧
        wr_clocks_invariant cwr out.2.portinfos := by
  intro ws
  induction ws with
  | nil =>
    intro cursor st out h h1 h3
    rw [write_loop] at h
    cases h
    exact ⟨h1, h3⟩
  | cons w rest ih =>
    intro cursor st out h h1 h3
    rw [write_loop] at h
    cases hf : find_port st.portinfos cursor
        (wr_port_ok mem bram st.clock_domains st.clock_polarities w) with
    | none =>
      rw [hf] at h
      cases h
    | some sl =>
      obtain ⟨slot, sg⟩ := sl
      rw [hf] at h
      obtain ⟨_, ⟨pi0, hget, hok⟩, _⟩ := find_port_some _ _ _ _ _ hf
      obtain ⟨g1, g3⟩ := bind_wr_preserves mem bram st w slot sg cwr pi0 hget hok h1 h3
      exact ih _ _ out h g1 g3

theorem read_round_preserves (mem : mem_cell_t) (cwr : List Nat)
    (backup : List (Nat × (SigBit × Bool))) :
    ∀ (ports : List Nat) (rst out : read_state),
      (read_round mem ports rst = .ok out ∨ read_round mem ports rst = .error out) →
      cd_invariant rst.a.clock_domains rst.a.portinfos →
      wr_backup_invariant backup rst.a.portinfos →
      wr_clocks_invariant cwr rst.a.portinfos →
      cd_invariant out.a.clock_domains out.a.portinfos ∧
        wr_backup_invariant backup out.a.portinfos ∧
        wr_clocks_invariant cwr out.a.portinfos := by
  intro ports
  induction ports with
  | nil =>
    intro rst out h h1 h2 h3
    rcases h with h | h <;> rw [read_round] at h
    · cases h
      exact ⟨h1, h2, h3⟩
    · cases h
  | cons r rs ih =>
    intro rst out h h1 h2 h3
    have heq : read_round mem (r :: rs) rst =
        match find_port rst.a.portinfos 0
            (rd_port_ok mem rst.a.clock_domains rst.a.clock_polarities r) with
        | none => .error rst
        | some (slot, _) => read_round mem rs (bind_rd mem rst r slot) := rfl
    cases hf : find_port rst.a.portinfos 0
        (rd_port_ok mem rst.a.clock_domains rst.a.clock_polarities r) with
    | none =>
      rw [heq, hf] at h
      rcases h with h | h
      · cases h
      · cases h
        exact ⟨h1, h2, h3⟩
    | some sl =>
      obtain ⟨slot, u⟩ := sl
      cases u
      rw [heq, hf] at h
      obtain ⟨_, ⟨pi0, hget, hok⟩, _⟩ := find_port_some _ _ _ _ _ hf
      obtain ⟨g1, g2, g3⟩ := bind_rd_preserves mem rst r slot cwr backup pi0 hget hok h1 h2 h3
      exact ih (bind_rd mem rst r slot) out h g1 g2 g3

theorem grow_read_cleared (dc cmax kmax : Nat) (cwr ckwr : List Nat)
    (pis : List portinfo_t) :
    ∀ pi ∈ grow_portinfos dc cwr ckwr cmax kmax pis, pi.wrmode = 0 →
      pi.mapped_port = none := by
  intro pi hpi hw
  rw [grow_portinfos_eq dc cmax kmax cwr ckwr pis, List.mem_flatMap] at hpi
  obtain ⟨pi0, _, hmem⟩ := hpi
  by_cases hd : (clear_read_binding pi0).dupidx = dc - 1
  · rw [if_pos hd] at hmem
    simp only [List.mem_cons, List.not_mem_nil, or_false] at hmem
    rcases hmem with h | h <;> subst h <;>
      by_cases hw0 : pi0.wrmode = 0 <;>
      simp [clear_read_binding, dup_shift, hw0] at hw ⊢
  · rw [if_neg hd] at hmem
    simp only [List.mem_cons, List.not_mem_nil, or_false] at hmem
    subst hmem
    by_cases hw0 : pi0.wrmode = 0 <;>
      simp [clear_read_binding, hw0] at hw ⊢

theorem grow_wr_source (dc cmax kmax : Nat) (cwr ckwr : List Nat)
    (pis : List portinfo_t) :
    ∀ pi ∈ grow_portinfos dc cwr ckwr cmax kmax pis, pi.wrmode ≠ 0 →
      ∃ pi0 ∈ pis, pi0.wrmode = pi.wrmode ∧ pi0.mapped_port = pi.mapped_port ∧
        pi0.sig_clock = pi.sig_clock ∧
        pi0.effective_clkpol = pi.effective_clkpol ∧
        (pi0.clocks ∈ cwr → pi0.clocks = pi.clocks) := by
  intro pi hpi hw
  rw [grow_portinfos_eq dc cmax kmax cwr ckwr pis, List.mem_flatMap] at hpi
  obtain ⟨pi0, hm0, hmem⟩ := hpi
  have hid : clear_read_binding pi0 = pi0 ∨ pi0.wrmode = 0 := by
    by_cases hw0 : pi0.wrmode = 0
    · exact Or.inr hw0
    · exact Or.inl (by simp [clear_read_binding, hw0])
  by_cases hw0 : pi0.wrmode = 0
  · exfalso
    by_cases hd : (clear_read_binding pi0).dupidx = dc - 1
    · rw [if_pos hd] at hmem
      simp only [List.mem_cons, List.not_mem_nil, or_false] at hmem
      rcases hmem with h | h <;> subst h <;>
        simp [clear_read_binding, dup_shift, hw0] at hw
    · rw [if_neg hd] at hmem
      simp only [List.mem_cons, List.not_mem_nil, or_false] at hmem
      subst hmem
      simp [clear_read_binding, hw0] at hw
  · have hcl : clear_read_binding pi0 = pi0 := by simp [clear_read_binding, hw0]
    rw [hcl] at hmem
    by_cases hd : pi0.dupidx = dc - 1
    · rw [if_pos hd] at hmem
      simp only [List.mem_cons, List.not_mem_nil, or_false] at hmem
      rcases hmem with h | h
      · exact ⟨pi0, hm0, by rw [h], by rw [h], by rw [h], by rw [h],
          fun _ => by rw [h]⟩
      · refine ⟨pi0, hm0, ?_, ?_, ?_, ?_, ?_⟩
        · rw [h]; simp [dup_shift]
        · rw [h]; simp [dup_shift]
        · rw [h]; simp [dup_shift]
        · rw [h]; simp [dup_shift]
        · intro hcwr
          rw [h]
          simp [dup_shift, hcwr]
    · rw [if_neg hd] at hmem
      simp only [List.mem_cons, List.not_mem_nil, or_false] at hmem
      exact ⟨pi0, hm0, by rw [hmem], by rw [hmem], by rw [hmem], by rw [hmem],
        fun _ => by rw [hmem]⟩

theorem grow_step_preserves (env : grow_env) (rst : read_state)
    (h2 : wr_backup_invariant env.backup_cd rst.a.portinfos)
    (h3 : wr_clocks_invariant env.cwr rst.a.portinfos) :
    cd_invariant (grow_step env rst).a.clock_domains
      (grow_step env rst).a.portinfos ∧
    wr_backup_invariant env.backup_cd (grow_step env rst).a.portinfos ∧
    wr_clocks_invariant env.cwr (grow_step env rst).a.portinfos := by
  have hpis : (grow_step env rst).a.portinfos =
      grow_portinfos rst.dup_count env.cwr env.ckwr env.cmax env.kmax
        rst.a.portinfos := rfl
  have hcd : (grow_step env rst).a.clock_domains = env.backup_cd := rfl
  refine ⟨?_, ?_, ?_⟩
  · intro pi hpi hmap hck
    rw [hpis] at hpi
    rw [hcd]
    by_cases hw : pi.wrmode = 0
    · have hm := grow_read_cleared rst.dup_count env.cmax env.kmax env.cwr env.ckwr
        rst.a.portinfos pi hpi hw
      rw [hm] at hmap
      simp at hmap
    · obtain ⟨pi0, hm0, hw0, hmp, hsc, hec, hcl⟩ := grow_wr_source rst.dup_count
        env.cmax env.kmax env.cwr env.ckwr rst.a.portinfos pi hpi hw
      have hclocks : pi0.clocks = pi.clocks :=
        hcl (h3 pi0 hm0 (by rw [hw0]; exact hw))
      have hb := h2 pi0 hm0 (by rw [hw0]; exact hw)
        (by rw [hmp]; exact hmap) (by rw [hclocks]; exact hck)
      rw [hclocks, hsc, hec] at hb
      exact hb
  · intro pi hpi hw hmap hck
    rw [hpis] at hpi
    obtain ⟨pi0, hm0, hw0, hmp, hsc, hec, hcl⟩ := grow_wr_source rst.dup_count
      env.cmax env.kmax env.cwr env.ckwr rst.a.portinfos pi hpi hw
    have hclocks : pi0.clocks = pi.clocks :=
      hcl (h3 pi0 hm0 (by rw [hw0]; exact hw))
    have hb := h2 pi0 hm0 (by rw [hw0]; exact hw)
      (by rw [hmp]; exact hmap) (by rw [hclocks]; exact hck)
    rw [hclocks, hsc, hec] at hb
    exact hb
  · intro pi hpi hw
    rw [hpis] at hpi
    obtain ⟨pi0, hm0, hw0, _, _, _, hcl⟩ := grow_wr_source rst.dup_count
      env.cmax env.kmax env.cwr env.ckwr rst.a.portinfos pi hpi hw
    have hin : pi0.clocks ∈ env.cwr := h3 pi0 hm0 (by rw [hw0]; exact hw)
    rw [← hcl hin]
    exact hin

theorem read_phase_preserves (mem : mem_cell_t) (env : grow_env) :
    ∀ (fuel : Nat) (rst out : read_state),
      read_phase mem env fuel rst = some (some out) →
      cd_invariant rst.a.clock_domains rst.a.portinfos →
      wr_backup_invariant env.backup_cd rst.a.portinfos →
      wr_clocks_invariant env.cwr rst.a.portinfos →
      cd_invariant out.a.clock_domains out.a.portinfos := by
  intro fuel
  induction fuel with
  | zero =>
    intro rst out h h1 h2 h3
    rw [read_phase] at h
    cases hr : read_round mem (List.range mem.rd_ports) rst with
    | ok rst2 =>
      rw [hr] at h
      simp at h
      subst h
      exact (read_round_preserves mem env.cwr env.backup_cd _ rst _
        (Or.inl hr) h1 h2 h3).1
    | error rst2 =>
      rw [hr] at h
      by_cases hg : rst2.try_growing_more_read_ports = true <;> simp [hg] at h
  | succ fuel2 ih =>
    intro rst out h h1 h2 h3
    rw [read_phase] at h
    cases hr : read_round mem (List.range mem.rd_ports) rst with
    | ok rst2 =>
      rw [hr] at h
      simp at h
      subst h
      exact (read_round_preserves mem env.cwr env.backup_cd _ rst _
        (Or.inl hr) h1 h2 h3).1
    | error rst2 =>
      rw [hr] at h
      by_cases hg : rst2.try_growing_more_read_ports = true
      · simp only [hg, if_true] at h
        obtain ⟨g1, g2, g3⟩ := read_round_preserves mem env.cwr env.backup_cd _
          rst rst2 (Or.inr hr) h1 h2 h3
        obtain ⟨k1, k2, k3⟩ := grow_step_preserves env rst2 g2 g3
        exact ih (grow_step env rst2) out h k1 k2 k3
      · simp [hg] at h

/-- Claim C6, counterexample: on a memory with one clocked write port
and no read ports mapped to `bramUnusedRd`, the read group's portinfo
has `clocks = 2 > 0` but stays unbound, and `clock_domains` has no entry
for cohort 2, so the claim quantified over every portinfo fails. -/
theorem C6_counterexample :
    (port_assignment memW1R0 bramUnusedRd).map (fun rst =>
      decide (∀ pi ∈ rst.a.portinfos, 0 < pi.clocks →
        dictGet rst.a.clock_domains pi.clocks =
          some (pi.sig_clock, pi.effective_clkpol))) = some false := by
  decide

/-- Claim C6 (amended): after a successful port assignment, every
MAPPED portinfo with `clocks = k > 0` has `clock_domains[k] =
(sig_clock, effective_clkpol)`; unbound portinfos are excluded (their
cohort may be absent from the map). -/
theorem C6_amended_theorem (mem : mem_cell_t) (bram : bram_t) (rst : read_state)
    (h : port_assignment mem bram = some rst) :
    ∀ pi ∈ rst.a.portinfos, pi.mapped_port.isSome = true → pi.clocks ≠ 0 →
      dictGet rst.a.clock_domains pi.clocks =
        some (pi.sig_clock, pi.effective_clkpol) := by
  rw [port_assignment] at h
  cases ha : assign_ports mem bram with
  | none => rw [ha] at h; cases h
  | some r0 =>
    rw [ha] at h
    subst h
    rw [assign_ports] at ha
    cases hw : write_phase mem bram with
    | none =>
      rw [hw] at ha
      cases ha
    | some st =>
      rw [hw] at ha
      rw [write_phase] at hw
      cases hwl : write_loop mem bram (List.range mem.wr_ports) 0 (init_state bram) with
      | none => rw [hwl] at hw; cases hw
      | some out =>
        rw [hwl] at hw
        simp at hw
        have hinit1 : cd_invariant (init_state bram).clock_domains
            (init_state bram).portinfos := by
          intro pi hpi hmap _
          rw [make_portinfos_unmapped bram pi hpi] at hmap
          simp at hmap
        have hinit3 : wr_clocks_invariant (clocks_wr_ports_of bram.make_portinfos)
            (init_state bram).portinfos := make_portinfos_wr_clocks bram
        obtain ⟨g1, g3⟩ := write_loop_preserves mem bram
          (clocks_wr_ports_of bram.make_portinfos) (List.range mem.wr_ports) 0
          (init_state bram) out hwl hinit1 hinit3
        rw [hw] at g1 g3
        have henv1 : cd_invariant (init_read_state st).a.clock_domains
            (init_read_state st).a.portinfos := g1
        have henv2 : wr_backup_invariant (make_grow_env bram st).backup_cd
            (init_read_state st).a.portinfos :=
          fun pi hpi _ hmap hck => g1 pi hpi hmap hck
        have henv3 : wr_clocks_invariant (make_grow_env bram st).cwr
            (init_read_state st).a.portinfos := g3
        exact read_phase_preserves mem (make_grow_env bram st) mem.rd_ports
          (init_read_state st) rst ha henv1 henv2 henv3

/-- Witness for C6: on the `memW1R2` / `bramRW` mapping (which succeeds
with two replicas) the write portinfo's cohort 1 is bound to the shared
clock wire with positive polarity. -/
theorem C6_amended_theorem_witness :
    dictGet ((port_assignment memW1R2 bramRW).getD
        (init_read_state (init_state bramRW))).a.clock_domains 1 =
      some (clkW, true) := by
  have h := C6_amended_theorem memW1R2 bramRW
    ((port_assignment memW1R2 bramRW).getD (init_read_state (init_state bramRW)))
    (by decide)
  exact h
    { group := 0, index := 0, dupidx := 0, wrmode := 1, enable := 4, transp := 0
      clocks := 1, clkpol := 1, sig_clock := SigBit.wirebit 100 0
      sig_addr := [SigBit.wirebit 7 0, SigBit.wirebit 7 1]
      sig_data := [SigBit.wirebit 6 0, SigBit.wirebit 6 1, SigBit.wirebit 6 2,
        SigBit.wirebit 6 3]
      sig_en := [SigBit.wirebit 5 0, SigBit.wirebit 5 0, SigBit.wirebit 5 0,
        SigBit.wirebit 5 0]
      effective_clkpol := true, mapped_port := some 0 }
    (by decide) (by decide) (by decide)

/-! ### Claim C3: the emitted grid -/

theorem lt_ceil_iff (step bound g : Nat) (hs : 0 < step) :
    g * step < bound ↔ g < (bound + step - 1) / step := by
  have hd := Nat.div_add_mod bound step
  by_cases hm : bound % step = 0
  · rw [ceil_div_mult step bound hs hm]
    constructor
    · intro h
      by_contra hge
      push_neg at hge
      have h2 : (bound / step) * step ≤ g * step := Nat.mul_le_mul_right step hge
      have hc : (bound / step) * step = step * (bound / step) := Nat.mul_comm _ _
      omega
    · intro h
      have h2 : (g + 1) * step ≤ (bound / step) * step :=
        Nat.mul_le_mul_right step h
      have hc1 : (g + 1) * step = g * step + step := by ring
      have hc2 : (bound / step) * step = step * (bound / step) := Nat.mul_comm _ _
      omega
  · rw [ceil_div_nonmult step bound hs hm]
    have hr : bound % step < step := Nat.mod_lt bound hs
    constructor
    · intro h
      by_contra hge
      push_neg at hge
      have h2 : (bound / step + 1) * step ≤ g * step :=
        Nat.mul_le_mul_right step hge
      have hc1 : (bound / step + 1) * step = step * (bound / step) + step := by ring
      omega
    · intro h
      have hle : g ≤ bound / step := by omega
      have h2 : g * step ≤ (bound / step) * step := Nat.mul_le_mul_right step hle
      have hc2 : (bound / step) * step = step * (bound / step) := Nat.mul_comm _ _
      omega

theorem grid_range_mem (bound step g : Nat) (hs : 0 < step) :
    g ∈ grid_range bound step ↔ g * step < bound := by
  simp only [grid_range, List.mem_filter, List.mem_range, decide_eq_true_eq]
  constructor
  · exact fun h => h.2
  · intro h
    have h2 : g ≤ g * step := Nat.le_mul_of_pos_right _ hs
    exact ⟨by omega, h⟩

theorem grid_range_length (bound step : Nat) (hs : 0 < step) :
    (grid_range bound step).length = (bound + step - 1) / step := by
  have hKb : (bound + step - 1) / step ≤ bound := by
    have h1 : (bound + step - 1) / step < bound + 1 := by
      rw [Nat.div_lt_iff_lt_mul hs]
      have h2 : bound ≤ bound * step := Nat.le_mul_of_pos_right _ hs
      have h3 : (bound + 1) * step = bound * step + step := by ring
      omega
    omega
  set K := (bound + step - 1) / step with hK
  have hfilter : grid_range bound step =
      (List.range bound).filter (fun g => decide (g < K)) := by
    refine List.filter_congr ?_
    intro g _
    exact decide_eq_decide.mpr (lt_ceil_iff step bound g hs)
  have hsplit : List.range bound =
      List.range K ++ (List.range (bound - K)).map (fun i => K + i) := by
    rw [← List.range_add]
    congr 1
    omega
  have h1 : (List.range K).filter (fun g => decide (g < K)) = List.range K :=
    List.filter_eq_self.mpr (by intro a ha; simpa using List.mem_range.mp ha)
  have h2 : ((List.range (bound - K)).map (fun i => K + i)).filter
      (fun g => decide (g < K)) = [] := by
    refine List.filter_eq_nil.mpr ?_
    intro a ha
    simp only [List.mem_map, List.mem_range] at ha
    obtain ⟨i, _, hi⟩ := ha
    simp only [decide_eq_true_eq]
    omega
  rw [hfilter, hsplit, List.filter_append, h1, h2, List.append_nil,
    List.length_range]

theorem sum_map_const {α : Type} (l : List α) (c : Nat) :
    (l.map (fun _ => c)).sum = l.length * c := by
  induction l with
  | nil => simp
  | cons a rest ih =>
    simp [ih]
    ring

theorem grid_positions_length (mem : mem_cell_t) (bram : bram_t) (dc : Nat)
    (hd : 0 < bram.dbits) :
    (grid_positions mem bram dc).length =
      ((mem.width + bram.dbits - 1) / bram.dbits) *
      (((mem.size + 2 ^ bram.abits - 1) / 2 ^ bram.abits) * dc) := by
  have ha : 0 < 2 ^ bram.abits := Nat.pos_pow_of_pos _ (by omega)
  rw [grid_positions, List.length_flatMap]
  simp only [Function.comp_def]
  have hmap : (grid_range mem.width bram.dbits).map
      (fun gd => ((grid_range mem.size (2 ^ bram.abits)).flatMap
        (fun ga => (List.range dc).map (fun di => (gd, ga, di)))).length) =
      (grid_range mem.width bram.dbits).map (fun _ =>
        ((mem.size + 2 ^ bram.abits - 1) / 2 ^ bram.abits) * dc) := by
    refine List.map_congr_left ?_
    intro gd _
    rw [List.length_flatMap]
    simp only [Function.comp_def]
    have hmap2 : (grid_range mem.size (2 ^ bram.abits)).map
        (fun ga => ((List.range dc).map (fun di => (gd, ga, di))).length) =
        (grid_range mem.size (2 ^ bram.abits)).map (fun _ => dc) := by
      refine List.map_congr_left ?_
      intro ga _
      simp
    rw [hmap2, sum_map_const, grid_range_length mem.size (2 ^ bram.abits) ha]
  rw [hmap, sum_map_const, grid_range_length mem.width bram.dbits hd]

theorem grid_positions_mem (mem : mem_cell_t) (bram : bram_t) (dc gd ga di : Nat)
    (hd : 0 < bram.dbits) :
    (gd, ga, di) ∈ grid_positions mem bram dc ↔
      gd < (mem.width + bram.dbits - 1) / bram.dbits ∧
      ga < (mem.size + 2 ^ bram.abits - 1) / 2 ^ bram.abits ∧
      di < dc := by
  have ha : 0 < 2 ^ bram.abits := Nat.pos_pow_of_pos _ (by omega)
  simp only [grid_positions, List.mem_flatMap, List.mem_map, List.mem_range,
    Prod.mk.injEq]
  constructor
  · intro ⟨gd2, hgd2, ga2, hga2, di2, hdi2, he1, he2, he3⟩
    subst he1
    subst he2
    subst he3
    exact ⟨(lt_ceil_iff _ _ _ hd).mp ((grid_range_mem _ _ _ hd).mp hgd2),
      (lt_ceil_iff _ _ _ ha).mp ((grid_range_mem _ _ _ ha).mp hga2), hdi2⟩
  · intro ⟨h1, h2, h3⟩
    exact ⟨gd, (grid_range_mem _ _ _ hd).mpr ((lt_ceil_iff _ _ _ hd).mpr h1),
      ga, (grid_range_mem _ _ _ ha).mpr ((lt_ceil_iff _ _ _ ha).mpr h2),
      di, h3, rfl, rfl, rfl⟩

theorem countP_filter_eq (l : List cell_inst) (p q : cell_inst → Bool)
    (h : ∀ c ∈ l, q c = true → p c = true) :
    (l.filter p).countP q = l.countP q := by
  induction l with
  | nil => rfl
  | cons c rest ih =>
    have hrest := ih (fun c2 hc2 => h c2 (List.mem_cons_of_mem _ hc2))
    by_cases hp : p c = true
    · simp [List.filter_cons, List.countP_cons, hp, hrest]
    · cases hq : q c with
      | true => exact absurd (h c (List.mem_cons_self _ _) hq) hp
      | false => simp [List.filter_cons, List.countP_cons, hp, hq, hrest]

/-- Claim C3: a successful replacement emits exactly
`⌈width/dbits⌉ · ⌈size/2^abits⌉ · dup_count` BRAM instances, one per
grid position `(grid_d, grid_a, dupidx)` within those bounds. -/
theorem C3_theorem (m : module_t) (cid : Nat) (mem : mem_cell_t) (bram : bram_t)
    (rst : read_state) (hd : 0 < bram.dbits)
    (h : port_assignment mem bram = some rst)
    (hm : ∀ c ∈ m.cells, c.cname = cell_name.orig cid →
      c.ctype = cell_type.mem_cell) :
    (replace_cell m cid mem bram).2 = true ∧
    ((replace_cell m cid mem bram).1.cells).countP
        (fun c => decide (c.ctype = .bram_cell bram.name)) =
      (m.cells).countP (fun c => decide (c.ctype = .bram_cell bram.name)) +
        ((mem.width + bram.dbits - 1) / bram.dbits) *
        (((mem.size + 2 ^ bram.abits - 1) / 2 ^ bram.abits) * rst.dup_count) ∧
    (∀ gd ga di, (gd, ga, di) ∈ grid_positions mem bram rst.dup_count ↔
      gd < (mem.width + bram.dbits - 1) / bram.dbits ∧
      ga < (mem.size + 2 ^ bram.abits - 1) / 2 ^ bram.abits ∧
      di < rst.dup_count) ∧
    (∀ pos ∈ grid_positions mem bram rst.dup_count,
      ∃ c ∈ (replace_cell m cid mem bram).1.cells,
        c.cname = cell_name.inst cid pos.1 pos.2.1 pos.2.2 ∧
        c.ctype = cell_type.bram_cell bram.name) := by
  have hrc : replace_cell m cid mem bram =
      (remove_cell (resolve_dout ((grid_positions mem bram rst.dup_count).foldl
        (emit_instance bram cid (clocks_max_of bram.make_portinfos)
          (clkpol_max_of bram.make_portinfos)
          rst.a.clock_polarities rst.a.portinfos) (m, [])).1
        ((grid_positions mem bram rst.dup_count).foldl
          (emit_instance bram cid (clocks_max_of bram.make_portinfos)
            (clkpol_max_of bram.make_portinfos)
            rst.a.clock_polarities rst.a.portinfos) (m, [])).2)
        (.orig cid), true) := by
    rw [replace_cell, h]
  refine ⟨by rw [hrc], ?_, ?_, ?_⟩
  · rw [hrc]
    set s2 := (grid_positions mem bram rst.dup_count).foldl
      (emit_instance bram cid (clocks_max_of bram.make_portinfos)
        (clkpol_max_of bram.make_portinfos)
        rst.a.clock_polarities rst.a.portinfos) (m, []) with hs2
    have hcount1 : ((resolve_dout s2.1 s2.2).cells).countP
        (fun c => decide (c.ctype = .bram_cell bram.name)) =
        (s2.1.cells).countP (fun c => decide (c.ctype = .bram_cell bram.name)) :=
      resolve_dout_countP s2.2 _ (fun c hc => by simp [hc]) s2.1
    have hcount2 : (s2.1.cells).countP
        (fun c => decide (c.ctype = .bram_cell bram.name)) =
        (m.cells).countP (fun c => decide (c.ctype = .bram_cell bram.name)) +
          (grid_positions mem bram rst.dup_count).length := by
      rw [hs2]
      exact emit_positions_countP bram cid _ _ _ _ _ (m, [])
    have hfilter : ∀ c ∈ (resolve_dout s2.1 s2.2).cells,
        decide (c.ctype = .bram_cell bram.name) = true →
        decide (c.cname ≠ cell_name.orig cid) = true := by
      intro c hc hq
      rcases resolve_dout_cells_new s2.2 s2.1 c hc with h2 | h2
      · rw [hs2] at h2
        rcases emit_positions_cells_new bram cid _ _ _ _ _ (m, []) c h2 with h3 | h3
        · have := hm c h3
          simp only [decide_eq_true_eq] at hq ⊢
          intro hn
          rw [this hn] at hq
          simp at hq
        · simp only [decide_eq_true_eq]
          exact h3.1 cid
      · simp only [decide_eq_true_eq]
        exact h2.1 cid
    rw [remove_cell]
    rw [countP_filter_eq _ _ _ hfilter, hcount1, hcount2,
      grid_positions_length mem bram rst.dup_count hd]
  · intro gd ga di
    exact grid_positions_mem mem bram rst.dup_count gd ga di hd
  · intro pos hpos
    rw [hrc]
    obtain ⟨c, hc, h1, h2⟩ := emit_positions_inst_mem bram cid
      (clocks_max_of bram.make_portinfos) (clkpol_max_of bram.make_portinfos)
      rst.a.clock_polarities rst.a.portinfos
      (grid_positions mem bram rst.dup_count) (m, []) pos hpos
    refine ⟨c, ?_, h1, h2⟩
    rw [remove_cell]
    simp only [List.mem_filter]
    refine ⟨resolve_dout_cells_super _ _ c hc, ?_⟩
    simp only [decide_eq_true_eq, h1]
    intro hcontra
    cases hcontra

/-- Witness for C3: the `memW1R2` / `bramRW` replacement succeeds (it
emits a 1 x 1 x 2 grid). -/
theorem C3_theorem_witness :
    (replace_cell modMem42 42 memW1R2 bramRW).2 = true :=
  (C3_theorem modMem42 42 memW1R2 bramRW
    ((port_assignment memW1R2 bramRW).getD (init_read_state (init_state bramRW)))
    (by decide) (by decide) (by decide)).1

/-! ### Claim C8: no partial mutations -/

/-- Claim C8: when port assignment fails, the module is returned
completely unchanged (no cells, wires or connections added); on success
the original cell is absent from the result, every other pre-existing
cell survives, and every grid instance is present. -/
theorem C8_theorem (m : module_t) (cid : Nat) (mem : mem_cell_t) (bram : bram_t) :
    (port_assignment mem bram = none → replace_cell m cid mem bram = (m, false)) ∧
    (∀ rst, port_assignment mem bram = some rst →
      (replace_cell m cid mem bram).2 = true ∧
      (∀ c ∈ (replace_cell m cid mem bram).1.cells, c.cname ≠ cell_name.orig cid) ∧
      (∀ c ∈ m.cells, c.cname ≠ cell_name.orig cid →
        c ∈ (replace_cell m cid mem bram).1.cells) ∧
      (∀ pos ∈ grid_positions mem bram rst.dup_count,
        ∃ c ∈ (replace_cell m cid mem bram).1.cells,
          c.cname = cell_name.inst cid pos.1 pos.2.1 pos.2.2 ∧
          c.ctype = cell_type.bram_cell bram.name)) := by
  constructor
  · intro h
    rw [replace_cell, h]
  · intro rst h
    have hrc : replace_cell m cid mem bram =
        (remove_cell (resolve_dout ((grid_positions mem bram rst.dup_count).foldl
          (emit_instance bram cid (clocks_max_of bram.make_portinfos)
            (clkpol_max_of bram.make_portinfos)
            rst.a.clock_polarities rst.a.portinfos) (m, [])).1
          ((grid_positions mem bram rst.dup_count).foldl
            (emit_instance bram cid (clocks_max_of bram.make_portinfos)
              (clkpol_max_of bram.make_portinfos)
              rst.a.clock_polarities rst.a.portinfos) (m, [])).2)
          (.orig cid), true) := by
      rw [replace_cell, h]
    refine ⟨by rw [hrc], ?_, ?_, ?_⟩
    · intro c hc
      rw [hrc, remove_cell] at hc
      simp only [List.mem_filter, decide_eq_true_eq] at hc
      exact hc.2
    · intro c hc hname
      rw [hrc, remove_cell]
      simp only [List.mem_filter, decide_eq_true_eq]
      refine ⟨?_, hname⟩
      refine resolve_dout_cells_super _ _ c ?_
      exact emit_positions_cells_super bram cid _ _ _ _ _ (m, []) c hc
    · intro pos hpos
      rw [hrc]
      obtain ⟨c, hc, h1, h2⟩ := emit_positions_inst_mem bram cid
        (clocks_max_of bram.make_portinfos) (clkpol_max_of bram.make_portinfos)
        rst.a.clock_polarities rst.a.portinfos
        (grid_positions mem bram rst.dup_count) (m, []) pos hpos
      refine ⟨c, ?_, h1, h2⟩
      rw [remove_cell]
      simp only [List.mem_filter, decide_eq_true_eq]
      refine ⟨resolve_dout_cells_super _ _ c hc, ?_⟩
      rw [h1]
      intro hcontra
      cases hcontra

/-- Witness for C8: mapping `memW1R2` onto `bramUnusedRd` fails (its
wire-driven write enables do not fit the enable-less write group), and
the module is returned untouched. -/
theorem C8_theorem_witness :
    replace_cell modMem42 42 memW1R2 bramUnusedRd = (modMem42, false) :=
  (C8_theorem modMem42 42 memW1R2 bramUnusedRd).1 (by decide)

/-! ### Claim C9: the per-cell rule loop -/

theorem add_waste_props_collapse (mem : mem_cell_t) (b1 b2 : bram_t) :
    add_waste_props (add_waste_props (init_props mem) b1) b2 =
      add_waste_props (init_props mem) b2 := rfl

/-- The property set threaded through the rule loop differs from the
initial one only in the three per-rule waste keys, so re-deriving them
for a new BRAM gives the same result as starting from the base set. -/
theorem props_norm (mem : mem_cell_t) (props : List (prop_key × Int))
    (h : props = init_props mem ∨
      ∃ b, props = add_waste_props (init_props mem) b) (bram : bram_t) :
    add_waste_props props bram = add_waste_props (init_props mem) bram := by
  rcases h with h | ⟨b, h⟩ <;> subst h
  · rfl
  · exact add_waste_props_collapse mem b bram

theorem contains_append_false {l : List Nat} {x y : Nat}
    (h : (l ++ [x]).contains y = false) : l.contains y = false ∧ y ≠ x := by
  simp only [List.contains_eq_any_beq, List.any_append, List.any_cons, List.any_nil,
    Bool.or_eq_false_iff, beq_eq_false_iff_ne] at h ⊢
  exact ⟨h.1, h.2.1⟩

theorem handle_loop_no_match (m : module_t) (cid : Nat) (mem : mem_cell_t)
    (brams : List (Nat × bram_t)) :
    ∀ (ms : List match_t) (i : Nat) (props : List (prop_key × Int))
      (failed : List Nat),
      (handle_loop m cid mem brams ms i props failed).res = .no_match →
      (handle_loop m cid mem brams ms i props failed).m = m := by
  intro ms
  induction ms with
  | nil => intro i props failed _; rfl
  | cons mt rest ih =>
    intro i props failed h
    cases hb : dictGet brams mt.name with
    | none =>
      simp only [handle_loop, hb] at h
      exact absurd h (by decide)
    | some bram =>
      by_cases hf : failed.contains mt.name = true
      · simp only [handle_loop, hb, hf, if_true] at h ⊢
        exact ih (i + 1) props failed h
      · cases heval : eval_match (add_waste_props props bram) mt with
        | fatal =>
          simp only [handle_loop, hb, hf, heval, if_false, Bool.false_eq_true] at h
          exact absurd h (by decide)
        | rejected =>
          simp only [handle_loop, hb, hf, heval, if_false, Bool.false_eq_true] at h ⊢
          exact ih (i + 1) (add_waste_props props bram) failed h
        | passed =>
          by_cases hrc : (replace_cell m cid mem bram).2 = true
          · simp only [handle_loop, hb, hf, heval, hrc, if_true, if_false,
              Bool.false_eq_true] at h
            exact handle_result.noConfusion h
          · simp only [handle_loop, hb, hf, heval, hrc, if_false,
              Bool.false_eq_true] at h ⊢
            exact ih (i + 1) (add_waste_props props bram) (failed ++ [mt.name]) h

theorem handle_loop_attempts (m : module_t) (cid : Nat) (mem : mem_cell_t)
    (brams : List (Nat × bram_t)) :
    ∀ (ms : List match_t) (i : Nat) (props : List (prop_key × Int))
      (failed : List Nat),
      (props = init_props mem ∨
        ∃ b, props = add_waste_props (init_props mem) b) →
      List.Pairwise (· < ·) (handle_loop m cid mem brams ms i props failed).attempts ∧
      ∀ j ∈ (handle_loop m cid mem brams ms i props failed).attempts,
        i ≤ j ∧ j - i < ms.length ∧
        ∃ mt bram, ms.get? (j - i) = some mt ∧
          dictGet brams mt.name = some bram ∧
          failed.contains mt.name = false ∧
          eval_match (add_waste_props (init_props mem) bram) mt = .passed := by
  intro ms
  induction ms with
  | nil =>
    intro i props failed _
    exact ⟨List.Pairwise.nil, by intro j hj; simp [handle_loop] at hj⟩
  | cons mt rest ih =>
    intro i props failed hprops
    cases hb : dictGet brams mt.name with
    | none =>
      simp only [handle_loop, hb]
      exact ⟨List.Pairwise.nil, by intro j hj; simp at hj⟩
    | some bram =>
      by_cases hf : failed.contains mt.name = true
      · simp only [handle_loop, hb, hf, if_true]
        obtain ⟨hpw, hall⟩ := ih (i + 1) props failed hprops
        refine ⟨hpw, ?_⟩
        intro j hj
        obtain ⟨hij, hlen, mt2, bram2, hget, hlook, hnf, hev⟩ := hall j hj
        refine ⟨by omega, by simp; omega, mt2, bram2, ?_, hlook, hnf, hev⟩
        rw [show j - i = (j - (i + 1)) + 1 from by omega, List.get?_cons_succ]
        exact hget
      · cases heval : eval_match (add_waste_props props bram) mt with
        | fatal =>
          simp only [handle_loop, hb, hf, heval, if_false, Bool.false_eq_true]
          exact ⟨List.Pairwise.nil, by intro j hj; simp at hj⟩
        | rejected =>
          simp only [handle_loop, hb, hf, heval, if_false, Bool.false_eq_true]
          obtain ⟨hpw, hall⟩ := ih (i + 1) (add_waste_props props bram) failed
            (Or.inr ⟨bram, props_norm mem props hprops bram⟩)
          refine ⟨hpw, ?_⟩
          intro j hj
          obtain ⟨hij, hlen, mt2, bram2, hget, hlook, hnf, hev⟩ := hall j hj
          refine ⟨by omega, by simp; omega, mt2, bram2, ?_, hlook, hnf, hev⟩
          rw [show j - i = (j - (i + 1)) + 1 from by omega, List.get?_cons_succ]
          exact hget
        | passed =>
          have hevi : eval_match (add_waste_props (init_props mem) bram) mt =
              .passed := by
            rw [← props_norm mem props hprops bram]
            exact heval
          by_cases hrc : (replace_cell m cid mem bram).2 = true
          · simp only [handle_loop, hb, hf, heval, hrc, if_true, if_false,
              Bool.false_eq_true]
            refine ⟨List.pairwise_singleton _ _, ?_⟩
            intro j hj
            simp only [List.mem_singleton] at hj
            subst hj
            refine ⟨le_refl _, by simp, mt, bram, by simp, hb, ?_, hevi⟩
            simpa using hf
          · simp only [handle_loop, hb, hf, heval, hrc, if_false,
              Bool.false_eq_true]
            obtain ⟨hpw, hall⟩ := ih (i + 1) (add_waste_props props bram)
              (failed ++ [mt.name])
              (Or.inr ⟨bram, props_norm mem props hprops bram⟩)
            constructor
            · refine List.pairwise_cons.mpr ⟨?_, hpw⟩
              intro j hj
              have := (hall j hj).1
              omega
            · intro j hj
              rcases List.mem_cons.mp hj with hj | hj
              · subst hj
                refine ⟨le_refl _, by simp, mt, bram, by simp, hb, ?_, hevi⟩
                simpa using hf
              · obtain ⟨hij, hlen, mt2, bram2, hget, hlook, hnf, hev⟩ := hall j hj
                have hnf2 : failed.contains mt2.name = false :=
                  (contains_append_false hnf).1
                refine ⟨by omega, by simp; omega, mt2, bram2, ?_, hlook, hnf2, hev⟩
                rw [show j - i = (j - (i + 1)) + 1 from by omega, List.get?_cons_succ]
                exact hget

theorem handle_loop_distinct (m : module_t) (cid : Nat) (mem : mem_cell_t)
    (brams : List (Nat × bram_t)) :
    ∀ (ms : List match_t) (i : Nat) (props : List (prop_key × Int))
      (failed : List Nat),
      (props = init_props mem ∨
        ∃ b, props = add_waste_props (init_props mem) b) →
      ∀ j1 ∈ (handle_loop m cid mem brams ms i props failed).attempts,
      ∀ j2 ∈ (handle_loop m cid mem brams ms i props failed).attempts,
        j1 < j2 →
        ∀ mt1 mt2, ms.get? (j1 - i) = some mt1 → ms.get? (j2 - i) = some mt2 →
          mt1.name ≠ mt2.name := by
  intro ms
  induction ms with
  | nil =>
    intro i props failed _ j1 hj1
    simp [handle_loop] at hj1
  | cons mt rest ih =>
    intro i props failed hprops j1 hj1 j2 hj2 hlt mt1 mt2 hg1 hg2
    cases hb : dictGet brams mt.name with
    | none => simp [handle_loop, hb] at hj1
    | some bram =>
      by_cases hf : failed.contains mt.name = true
      · simp only [handle_loop, hb, hf, if_true] at hj1 hj2
        have ha := (handle_loop_attempts m cid mem brams rest (i + 1) props
          failed hprops).2
        have h1 := (ha j1 hj1).1
        have h2 := (ha j2 hj2).1
        refine ih (i + 1) props failed hprops j1 hj1 j2 hj2 hlt mt1 mt2 ?_ ?_
        · rw [← hg1, show j1 - i = (j1 - (i + 1)) + 1 from by omega,
            List.get?_cons_succ]
        · rw [← hg2, show j2 - i = (j2 - (i + 1)) + 1 from by omega,
            List.get?_cons_succ]
      · cases heval : eval_match (add_waste_props props bram) mt with
        | fatal =>
          simp only [handle_loop, hb, hf, heval, if_false,
            Bool.false_eq_true] at hj1
          simp at hj1
        | rejected =>
          simp only [handle_loop, hb, hf, heval, if_false,
            Bool.false_eq_true] at hj1 hj2
          have hinv : add_waste_props props bram = init_props mem ∨
              ∃ b, add_waste_props props bram =
                add_waste_props (init_props mem) b :=
            Or.inr ⟨bram, props_norm mem props hprops bram⟩
          have ha := (handle_loop_attempts m cid mem brams rest (i + 1)
            (add_waste_props props bram) failed hinv).2
          have h1 := (ha j1 hj1).1
          have h2 := (ha j2 hj2).1
          refine ih (i + 1) (add_waste_props props bram) failed hinv j1 hj1 j2
            hj2 hlt mt1 mt2 ?_ ?_
          · rw [← hg1, show j1 - i = (j1 - (i + 1)) + 1 from by omega,
              List.get?_cons_succ]
          · rw [← hg2, show j2 - i = (j2 - (i + 1)) + 1 from by omega,
              List.get?_cons_succ]
        | passed =>
          by_cases hrc : (replace_cell m cid mem bram).2 = true
          · simp only [handle_loop, hb, hf, heval, hrc, if_true, if_false,
              Bool.false_eq_true] at hj1 hj2
            simp only [List.mem_singleton] at hj1 hj2
            omega
          · simp only [handle_loop, hb, hf, heval, hrc, if_false,
              Bool.false_eq_true] at hj1 hj2
            have hinv : add_waste_props props bram = init_props mem ∨
                ∃ b, add_waste_props props bram =
                  add_waste_props (init_props mem) b :=
              Or.inr ⟨bram, props_norm mem props hprops bram⟩
            have ha := (handle_loop_attempts m cid mem brams rest (i + 1)
              (add_waste_props props bram) (failed ++ [mt.name]) hinv).2
            rcases List.mem_cons.mp hj1 with h1i | hj1r
            · rcases List.mem_cons.mp hj2 with h2i | hj2r
              · omega
              · have hmt1 : mt1 = mt := by
                  rw [h1i, Nat.sub_self, List.get?_cons_zero] at hg1
                  exact (Option.some.injEq _ _ ▸ hg1).symm
                obtain ⟨h2i, _, mt2a, bram2, hg2a, _, hnf2, _⟩ := ha j2 hj2r
                have hg2b : rest.get? (j2 - (i + 1)) = some mt2 := by
                  rw [← hg2, show j2 - i = (j2 - (i + 1)) + 1 from by omega,
                    List.get?_cons_succ]
                have hmt2 : mt2 = mt2a := by
                  rw [hg2b] at hg2a
                  exact Option.some.inj hg2a
                subst hmt1
                subst hmt2
                exact fun hn => (contains_append_false hnf2).2 hn.symm
            · rcases List.mem_cons.mp hj2 with h2i | hj2r
              · have h1b := (ha j1 hj1r).1
                omega
              · have h1b := (ha j1 hj1r).1
                have h2b := (ha j2 hj2r).1
                refine ih (i + 1) (add_waste_props props bram)
                  (failed ++ [mt.name]) hinv j1 hj1r j2 hj2r hlt mt1 mt2 ?_ ?_
                · rw [← hg1, show j1 - i = (j1 - (i + 1)) + 1 from by omega,
                    List.get?_cons_succ]
                · rw [← hg2, show j2 - i = (j2 - (i + 1)) + 1 from by omega,
                    List.get?_cons_succ]

theorem contains_append_true {l : List Nat} {x y : Nat}
    (h : (l ++ [x]).contains y = true) : l.contains y = true ∨ y = x := by
  simp only [List.contains_eq_any_beq, List.any_append, List.any_cons,
    List.any_nil, Bool.or_eq_true, beq_iff_eq] at h ⊢
  tauto

theorem handle_loop_replaced (m : module_t) (cid : Nat) (mem : mem_cell_t)
    (brams : List (Nat × bram_t)) :
    ∀ (ms : List match_t) (i : Nat) (props : List (prop_key × Int))
      (failed : List Nat) (k : Nat),
      (props = init_props mem ∨
        ∃ b, props = add_waste_props (init_props mem) b) →
      (handle_loop m cid mem brams ms i props failed).res = .replaced k →
      i ≤ k ∧
      (handle_loop m cid mem brams ms i props failed).attempts.getLast? =
        some k ∧
      (∃ mt bram, ms.get? (k - i) = some mt ∧
        dictGet brams mt.name = some bram ∧
        (replace_cell m cid mem bram).2 = true ∧
        (handle_loop m cid mem brams ms i props failed).m =
          (replace_cell m cid mem bram).1) ∧
      ∀ j ∈ (handle_loop m cid mem brams ms i props failed).attempts, j ≠ k →
        ∃ mt bram, ms.get? (j - i) = some mt ∧
          dictGet brams mt.name = some bram ∧
          (replace_cell m cid mem bram).2 = false := by
  intro ms
  induction ms with
  | nil =>
    intro i props failed k _ h
    simp only [handle_loop] at h
    exact handle_result.noConfusion h
  | cons mt rest ih =>
    intro i props failed k hprops h
    cases hb : dictGet brams mt.name with
    | none =>
      simp only [handle_loop, hb] at h
      exact handle_result.noConfusion h
    | some bram =>
      by_cases hf : failed.contains mt.name = true
      · simp only [handle_loop, hb, hf, if_true] at h ⊢
        obtain ⟨hik, hlast, ⟨mt2, bram2, hget, hlook, hrc2, hm⟩, hall⟩ :=
          ih (i + 1) props failed k hprops h
        have ha := (handle_loop_attempts m cid mem brams rest (i + 1) props
          failed hprops).2
        refine ⟨by omega, hlast, ⟨mt2, bram2, ?_, hlook, hrc2, hm⟩, ?_⟩
        · rw [show k - i = (k - (i + 1)) + 1 from by omega, List.get?_cons_succ]
          exact hget
        · intro j hj hjk
          obtain ⟨mt3, bram3, hget3, hlook3, hrc3⟩ := hall j hj hjk
          have hij := (ha j hj).1
          refine ⟨mt3, bram3, ?_, hlook3, hrc3⟩
          rw [show j - i = (j - (i + 1)) + 1 from by omega, List.get?_cons_succ]
          exact hget3
      · cases heval : eval_match (add_waste_props props bram) mt with
        | fatal =>
          simp only [handle_loop, hb, hf, heval, if_false,
            Bool.false_eq_true] at h
          exact handle_result.noConfusion h
        | rejected =>
          simp only [handle_loop, hb, hf, heval, if_false,
            Bool.false_eq_true] at h ⊢
          have hinv : add_waste_props props bram = init_props mem ∨
              ∃ b, add_waste_props props bram =
                add_waste_props (init_props mem) b :=
            Or.inr ⟨bram, props_norm mem props hprops bram⟩
          obtain ⟨hik, hlast, ⟨mt2, bram2, hget, hlook, hrc2, hm⟩, hall⟩ :=
            ih (i + 1) (add_waste_props props bram) failed k hinv h
          have ha := (handle_loop_attempts m cid mem brams rest (i + 1)
            (add_waste_props props bram) failed hinv).2
          refine ⟨by omega, hlast, ⟨mt2, bram2, ?_, hlook, hrc2, hm⟩, ?_⟩
          · rw [show k - i = (k - (i + 1)) + 1 from by omega,
              List.get?_cons_succ]
            exact hget
          · intro j hj hjk
            obtain ⟨mt3, bram3, hget3, hlook3, hrc3⟩ := hall j hj hjk
            have hij := (ha j hj).1
            refine ⟨mt3, bram3, ?_, hlook3, hrc3⟩
            rw [show j - i = (j - (i + 1)) + 1 from by omega,
              List.get?_cons_succ]
            exact hget3
        | passed =>
          by_cases hrc : (replace_cell m cid mem bram).2 = true
          · simp only [handle_loop, hb, hf, heval, hrc, if_true, if_false,
              Bool.false_eq_true] at h ⊢
            injection h with h2
            subst h2
            refine ⟨le_refl _, by simp, ⟨mt, bram, by simp, hb, hrc, rfl⟩, ?_⟩
            intro j hj hjk
            simp only [List.mem_singleton] at hj
            exact absurd hj hjk
          · simp only [handle_loop, hb, hf, heval, hrc, if_false,
              Bool.false_eq_true] at h ⊢
            have hinv : add_waste_props props bram = init_props mem ∨
                ∃ b, add_waste_props props bram =
                  add_waste_props (init_props mem) b :=
              Or.inr ⟨bram, props_norm mem props hprops bram⟩
            obtain ⟨hik, hlast, ⟨mt2, bram2, hget, hlook, hrc2, hm⟩, hall⟩ :=
              ih (i + 1) (add_waste_props props bram) (failed ++ [mt.name]) k
                hinv h
            have ha := (handle_loop_attempts m cid mem brams rest (i + 1)
              (add_waste_props props bram) (failed ++ [mt.name]) hinv).2
            refine ⟨by omega, ?_, ⟨mt2, bram2, ?_, hlook, hrc2, hm⟩, ?_⟩
            · cases hatt : (handle_loop m cid mem brams rest (i + 1)
                  (add_waste_props props bram) (failed ++ [mt.name])).attempts
                with
              | nil => rw [hatt] at hlast; simp at hlast
              | cons b l =>
                rw [hatt] at hlast
                rw [List.getLast?_cons_cons]
                exact hlast
            · rw [show k - i = (k - (i + 1)) + 1 from by omega,
                List.get?_cons_succ]
              exact hget
            · intro j hj hjk
              rcases List.mem_cons.mp hj with hji | hjr
              · refine ⟨mt, bram, ?_, hb, ?_⟩
                · rw [hji, Nat.sub_self, List.get?_cons_zero]
                · simpa using hrc
              · obtain ⟨mt3, bram3, hget3, hlook3, hrc3⟩ := hall j hjr hjk
                have hij := (ha j hjr).1
                refine ⟨mt3, bram3, ?_, hlook3, hrc3⟩
                rw [show j - i = (j - (i + 1)) + 1 from by omega,
                  List.get?_cons_succ]
                exact hget3

theorem handle_loop_complete (m : module_t) (cid : Nat) (mem : mem_cell_t)
    (brams : List (Nat × bram_t)) :
    ∀ (ms : List match_t) (i : Nat) (props : List (prop_key × Int))
      (failed : List Nat),
      (props = init_props mem ∨
        ∃ b, props = add_waste_props (init_props mem) b) →
      ∀ j mt bram, i ≤ j → ms.get? (j - i) = some mt →
        dictGet brams mt.name = some bram →
        eval_match (add_waste_props (init_props mem) bram) mt = .passed →
        (∀ k, (handle_loop m cid mem brams ms i props failed).res =
          .replaced k → j ≤ k) →
        (handle_loop m cid mem brams ms i props failed).res ≠ .fatal →
        j ∈ (handle_loop m cid mem brams ms i props failed).attempts ∨
        failed.contains mt.name = true ∨
        ∃ j2 ∈ (handle_loop m cid mem brams ms i props failed).attempts,
          j2 < j ∧ ∃ mt2, ms.get? (j2 - i) = some mt2 ∧
            mt2.name = mt.name := by
  intro ms
  induction ms with
  | nil =>
    intro i props failed _ j mt bram _ hget _ _ _ _
    simp at hget
  | cons mta rest ih =>
    intro i props failed hprops j mt bram hij hget hlook hev hrep hfat
    cases hb : dictGet brams mta.name with
    | none =>
      simp only [handle_loop, hb] at hfat
      exact absurd rfl hfat
    | some brama =>
      by_cases hf : failed.contains mta.name = true
      · simp only [handle_loop, hb, hf, if_true] at hrep hfat ⊢
        by_cases hji : j = i
        · have hmt : mt = mta := by
            rw [hji, Nat.sub_self, List.get?_cons_zero] at hget
            exact (Option.some.inj hget).symm
          right
          left
          rw [hmt]
          exact hf
        · have hij1 : i + 1 ≤ j := by omega
          have hget1 : rest.get? (j - (i + 1)) = some mt := by
            rw [← hget, show j - i = (j - (i + 1)) + 1 from by omega,
              List.get?_cons_succ]
          rcases ih (i + 1) props failed hprops j mt bram hij1 hget1 hlook hev
              hrep hfat with h | h | ⟨j2, hj2, hlt2, mt2, hg2, hn2⟩
          · exact Or.inl h
          · exact Or.inr (Or.inl h)
          · refine Or.inr (Or.inr ⟨j2, hj2, hlt2, mt2, ?_, hn2⟩)
            have hij2 := ((handle_loop_attempts m cid mem brams rest (i + 1)
              props failed hprops).2 j2 hj2).1
            rw [show j2 - i = (j2 - (i + 1)) + 1 from by omega,
              List.get?_cons_succ]
            exact hg2
      · cases heval : eval_match (add_waste_props props brama) mta with
        | fatal =>
          simp only [handle_loop, hb, hf, heval, if_false,
            Bool.false_eq_true] at hfat
          exact absurd rfl hfat
        | rejected =>
          simp only [handle_loop, hb, hf, heval, if_false,
            Bool.false_eq_true] at hrep hfat ⊢
          have hinv : add_waste_props props brama = init_props mem ∨
              ∃ b, add_waste_props props brama =
                add_waste_props (init_props mem) b :=
            Or.inr ⟨brama, props_norm mem props hprops brama⟩
          by_cases hji : j = i
          · exfalso
            have hmt : mt = mta := by
              rw [hji, Nat.sub_self, List.get?_cons_zero] at hget
              exact (Option.some.inj hget).symm
            have hbr : brama = bram := by
              rw [hmt] at hlook
              rw [hlook] at hb
              exact (Option.some.inj hb).symm
            rw [props_norm mem props hprops brama] at heval
            rw [hbr] at heval
            rw [← hmt] at heval
            rw [hev] at heval
            exact limit_result.noConfusion heval
          · have hij1 : i + 1 ≤ j := by omega
            have hget1 : rest.get? (j - (i + 1)) = some mt := by
              rw [← hget, show j - i = (j - (i + 1)) + 1 from by omega,
                List.get?_cons_succ]
            rcases ih (i + 1) (add_waste_props props brama) failed hinv j mt
                bram hij1 hget1 hlook hev hrep hfat with
              h | h | ⟨j2, hj2, hlt2, mt2, hg2, hn2⟩
            · exact Or.inl h
            · exact Or.inr (Or.inl h)
            · refine Or.inr (Or.inr ⟨j2, hj2, hlt2, mt2, ?_, hn2⟩)
              have hij2 := ((handle_loop_attempts m cid mem brams rest (i + 1)
                (add_waste_props props brama) failed hinv).2 j2 hj2).1
              rw [show j2 - i = (j2 - (i + 1)) + 1 from by omega,
                List.get?_cons_succ]
              exact hg2
        | passed =>
          by_cases hrc : (replace_cell m cid mem brama).2 = true
          · simp only [handle_loop, hb, hf, heval, hrc, if_true, if_false,
              Bool.false_eq_true] at hrep ⊢
            have hji : j ≤ i := hrep i rfl
            have hji2 : j = i := by omega
            left
            simp [hji2]
          · simp only [handle_loop, hb, hf, heval, hrc, if_false,
              Bool.false_eq_true] at hrep hfat ⊢
            have hinv : add_waste_props props brama = init_props mem ∨
                ∃ b, add_waste_props props brama =
                  add_waste_props (init_props mem) b :=
              Or.inr ⟨brama, props_norm mem props hprops brama⟩
            by_cases hji : j = i
            · left
              rw [hji]
              exact List.mem_cons_self _ _
            · have hij1 : i + 1 ≤ j := by omega
              have hget1 : rest.get? (j - (i + 1)) = some mt := by
                rw [← hget, show j - i = (j - (i + 1)) + 1 from by omega,
                  List.get?_cons_succ]
              rcases ih (i + 1) (add_waste_props props brama)
                  (failed ++ [mta.name]) hinv j mt bram hij1 hget1 hlook hev
                  hrep hfat with h | h | ⟨j2, hj2, hlt2, mt2, hg2, hn2⟩
              · exact Or.inl (List.mem_cons_of_mem _ h)
              · rcases contains_append_true h with hc | hc
                · exact Or.inr (Or.inl hc)
                · refine Or.inr (Or.inr ⟨i, List.mem_cons_self _ _, by omega,
                    mta, ?_, hc.symm⟩)
                  rw [Nat.sub_self, List.get?_cons_zero]
              · refine Or.inr (Or.inr ⟨j2, List.mem_cons_of_mem _ hj2, hlt2,
                  mt2, ?_, hn2⟩)
                have hij2 := ((handle_loop_attempts m cid mem brams rest
                  (i + 1) (add_waste_props props brama) (failed ++ [mta.name])
                  hinv).2 j2 hj2).1
                rw [show j2 - i = (j2 - (i + 1)) + 1 from by omega,
                  List.get?_cons_succ]
                exact hg2

/-- C9: for each memory cell the match rules are evaluated in declaration
order; every attempted rule is satisfied and references a known BRAM;
once a BRAM fails, no later rule referencing the same BRAM is attempted
again (attempted rules have pairwise distinct BRAM names); the loop stops
at the first successful replacement (the successful rule is the last
attempt, every earlier attempt failed, and the module is the one produced
by the successful replacement); if every rule is exhausted the cell is
left untouched (non-fatal `no_match`); and every satisfied rule with a
known BRAM that precedes the stopping point is either attempted or
shares its BRAM name with an earlier attempt that failed. -/
theorem C9_theorem (m : module_t) (cid : Nat) (mem : mem_cell_t)
    (brams : List (Nat × bram_t)) (ms : List match_t) :
    List.Pairwise (· < ·) (handle_cell m cid mem brams ms).attempts ∧
    (∀ j ∈ (handle_cell m cid mem brams ms).attempts,
      ∃ mt bram, ms.get? j = some mt ∧ dictGet brams mt.name = some bram ∧
        eval_match (add_waste_props (init_props mem) bram) mt = .passed) ∧
    (∀ j1 ∈ (handle_cell m cid mem brams ms).attempts,
      ∀ j2 ∈ (handle_cell m cid mem brams ms).attempts, j1 < j2 →
      ∀ mt1 mt2, ms.get? j1 = some mt1 → ms.get? j2 = some mt2 →
        mt1.name ≠ mt2.name) ∧
    (∀ k, (handle_cell m cid mem brams ms).res = .replaced k →
      (handle_cell m cid mem brams ms).attempts.getLast? = some k ∧
      (∃ mt bram, ms.get? k = some mt ∧ dictGet brams mt.name = some bram ∧
        (replace_cell m cid mem bram).2 = true ∧
        (handle_cell m cid mem brams ms).m = (replace_cell m cid mem bram).1) ∧
      ∀ j ∈ (handle_cell m cid mem brams ms).attempts, j ≠ k →
        ∃ mt bram, ms.get? j = some mt ∧
          dictGet brams mt.name = some bram ∧
          (replace_cell m cid mem bram).2 = false) ∧
    ((handle_cell m cid mem brams ms).res = .no_match →
      (handle_cell m cid mem brams ms).m = m) ∧
    (∀ j mt bram, ms.get? j = some mt → dictGet brams mt.name = some bram →
      eval_match (add_waste_props (init_props mem) bram) mt = .passed →
      (∀ k, (handle_cell m cid mem brams ms).res = .replaced k → j ≤ k) →
      (handle_cell m cid mem brams ms).res ≠ .fatal →
      j ∈ (handle_cell m cid mem brams ms).attempts ∨
      ∃ j2 ∈ (handle_cell m cid mem brams ms).attempts, j2 < j ∧
        ∃ mt2, ms.get? j2 = some mt2 ∧ mt2.name = mt.name) := by
  have hinv : init_props mem = init_props mem ∨
      ∃ b, init_props mem = add_waste_props (init_props mem) b := Or.inl rfl
  have ha := handle_loop_attempts m cid mem brams ms 0 (init_props mem) [] hinv
  refine ⟨ha.1, ?_, ?_, ?_, ?_, ?_⟩
  · intro j hj
    obtain ⟨_, _, mt, bram, hget, hlook, _, hev⟩ := ha.2 j hj
    rw [Nat.sub_zero] at hget
    exact ⟨mt, bram, hget, hlook, hev⟩
  · intro j1 hj1 j2 hj2 hlt mt1 mt2 hg1 hg2
    exact handle_loop_distinct m cid mem brams ms 0 (init_props mem) [] hinv
      j1 hj1 j2 hj2 hlt mt1 mt2 (by rw [Nat.sub_zero]; exact hg1)
      (by rw [Nat.sub_zero]; exact hg2)
  · intro k hres
    obtain ⟨_, hlast, ⟨mt, bram, hget, hlook, hrc, hm⟩, hall⟩ :=
      handle_loop_replaced m cid mem brams ms 0 (init_props mem) [] k hinv hres
    rw [Nat.sub_zero] at hget
    refine ⟨hlast, ⟨mt, bram, hget, hlook, hrc, hm⟩, ?_⟩
    intro j hj hjk
    obtain ⟨mt3, bram3, hget3, hlook3, hrc3⟩ := hall j hj hjk
    rw [Nat.sub_zero] at hget3
    exact ⟨mt3, bram3, hget3, hlook3, hrc3⟩
  · exact handle_loop_no_match m cid mem brams ms 0 (init_props mem) []
  · intro j mt bram hget hlook hev hrep hfat
    rcases handle_loop_complete m cid mem brams ms 0 (init_props mem) [] hinv
        j mt bram (Nat.zero_le j) (by rw [Nat.sub_zero]; exact hget) hlook hev
        hrep hfat with h | h | ⟨j2, hj2, hlt2, mt2, hg2, hn2⟩
    · exact Or.inl h
    · simp at h
    · rw [Nat.sub_zero] at hg2
      exact Or.inr ⟨j2, hj2, hlt2, mt2, hg2, hn2⟩

theorem C9_theorem_witness :
    (handle_cell modMem42 42 memW1R2 [(9, bramRW)]
        [{ name := 9, min_limits := [], max_limits := [] }]).attempts.getLast? =
      some 0 :=
  ((C9_theorem modMem42 42 memW1R2 [(9, bramRW)]
    [{ name := 9, min_limits := [], max_limits := [] }]).2.2.2.1 0
    (by decide)).1

end MemoryBram
